import Mathlib

/-!
Shallow embedding of the MediaFusion template preview engine
(`frontend/src/lib/templatePreview.ts`) and proofs about its behaviour.

Strings are modelled as lists of UTF-16-style characters (`Str`), matching
JavaScript string iteration order. JavaScript numbers are modelled as exact
rationals; the templates and contexts exercised by the theorems below stay
within the range where IEEE doubles and rationals agree.
-/

set_option maxHeartbeats 1000000

namespace TemplatePreview

/-- Characters of a JavaScript string, in order. -/
abbrev Str := List Char

/-- Convert a Lean string literal to the character-list model. -/
def strL (s : String) : Str := s.data

/-- JavaScript `\s` (whitespace) character class, as used by `trim` and the
`\s+` regex pieces in the engine. -/
def isJsSpace (c : Char) : Bool :=
  c = ' ' || c = '\t' || c = '\n' || c = Char.ofNat 11 || c = Char.ofNat 12 ||
  c = '\r' || c = Char.ofNat 160 || c = Char.ofNat 0x1680 ||
  (0x2000 ≤ c.toNat && c.toNat ≤ 0x200A) || c = Char.ofNat 0x2028 ||
  c = Char.ofNat 0x2029 || c = Char.ofNat 0x202F || c = Char.ofNat 0x205F ||
  c = Char.ofNat 0x3000 || c = Char.ofNat 0xFEFF

/-- JavaScript line terminators, which the regex `.` never matches. -/
def isLineTerm (c : Char) : Bool :=
  c = '\n' || c = '\r' || c = Char.ofNat 0x2028 || c = Char.ofNat 0x2029

/-- ASCII decimal digit test (regex `\d`). -/
def isDigitC (c : Char) : Bool := '0' ≤ c && c ≤ '9'

/-- Regex `[a-zA-Z_]`: the first character of an identifier. -/
def isIdentStart (c : Char) : Bool :=
  ('a' ≤ c && c ≤ 'z') || ('A' ≤ c && c ≤ 'Z') || c = '_'

/-- Regex `\w`: identifier continuation characters. -/
def isWordChar (c : Char) : Bool := isIdentStart c || isDigitC c

/-- Regex `[a-zA-Z0-9_.]`: characters allowed inside a variable path. -/
def isPathChar (c : Char) : Bool := isWordChar c || c = '.'

/-- Case-insensitive character comparison used for the `/i` regex flag
(ASCII folding, which covers every keyword the engine matches). -/
def ciEq (a b : Char) : Bool := a.toLower = b.toLower

/-- Case-insensitive prefix test for a keyword. -/
def ciPrefix : Str → Str → Bool
  | [], _ => true
  | _ :: _, [] => false
  | k :: ks, c :: cs => ciEq c k && ciPrefix ks cs

/-- `String.prototype.trim`: drop JavaScript whitespace at both ends. -/
def trimL (s : Str) : Str :=
  ((s.dropWhile (fun c => isJsSpace c)).reverse.dropWhile
    (fun c => isJsSpace c)).reverse

/-- `String.prototype.toLowerCase`, ASCII portion. -/
def lowerL (s : Str) : Str := s.map Char.toLower

/-- JavaScript `split` with a single-character separator: `splitChar c s`
returns the fragments of `s` between occurrences of `c`; it is never empty
and `splitChar c [] = [[]]` just as `"".split(c)` is `[""]`. -/
def splitChar (c : Char) : Str → List Str
  | [] => [[]]
  | x :: xs =>
    if x = c then [] :: splitChar c xs
    else
      match splitChar c xs with
      | [] => [[x]]
      | p :: ps => (x :: p) :: ps

/-- JavaScript `Array.prototype.join` with a separator string. -/
def joinWith (sep : Str) : List Str → Str
  | [] => []
  | [p] => p
  | p :: q :: ps => p ++ sep ++ joinWith sep (q :: ps)

/-- The blank-line normalization pass at the end of `renderNodes`:
split on line breaks, drop all-whitespace lines, rejoin. -/
def collapse (s : Str) : Str :=
  joinWith ['\n'] ((splitChar '\n' s).filter (fun line => trimL line ≠ []))

theorem splitChar_ne_nil (c : Char) (s : Str) : splitChar c s ≠ [] := by
  induction s with
  | nil => simp [splitChar]
  | cons x xs ih =>
    by_cases h : x = c
    · simp [splitChar, h]
    · simp only [splitChar, if_neg h]
      cases hs : splitChar c xs with
      | nil => simp
      | cons p ps => simp

theorem splitChar_no_sep (c : Char) (s : Str) :
    ∀ p ∈ splitChar c s, c ∉ p := by
  induction s with
  | nil =>
    intro p hp
    simp only [splitChar, List.mem_singleton] at hp
    simp [hp]
  | cons x xs ih =>
    intro p hp
    by_cases h : x = c
    · rw [splitChar, if_pos h] at hp
      rcases List.mem_cons.mp hp with hp | hp
      · simp [hp]
      · exact ih p hp
    · rw [splitChar, if_neg h] at hp
      cases hs : splitChar c xs with
      | nil => exact absurd hs (splitChar_ne_nil c xs)
      | cons q qs =>
        rw [hs] at hp
        rcases List.mem_cons.mp hp with hp | hp
        · subst hp
          intro hc
          rcases List.mem_cons.mp hc with hc | hc
          · exact h hc.symm
          · exact ih q (hs ▸ List.mem_cons_self q qs) hc
        · exact ih p (hs ▸ List.mem_cons_of_mem q hp)

theorem splitChar_of_no_sep (c : Char) (s : Str) (h : c ∉ s) :
    splitChar c s = [s] := by
  induction s with
  | nil => simp [splitChar]
  | cons x xs ih =>
    have hx : x ≠ c := fun hxc => h (hxc ▸ List.mem_cons_self x xs)
    have hxs : c ∉ xs := fun hc => h (List.mem_cons_of_mem x hc)
    simp only [splitChar, if_neg hx, ih hxs]

theorem splitChar_append_sep (c : Char) (s t : Str) (h : c ∉ s) :
    splitChar c (s ++ c :: t) = s :: splitChar c t := by
  induction s with
  | nil => simp [splitChar]
  | cons x xs ih =>
    have hx : x ≠ c := fun hxc => h (hxc ▸ List.mem_cons_self x xs)
    have hxs : c ∉ xs := fun hc => h (List.mem_cons_of_mem x hc)
    have hstep : (x :: xs) ++ c :: t = x :: (xs ++ c :: t) := rfl
    rw [hstep, splitChar, if_neg hx, ih hxs]

theorem splitChar_joinWith (ps : List Str) (hne : ps ≠ [])
    (h : ∀ p ∈ ps, '\n' ∉ p) :
    splitChar '\n' (joinWith ['\n'] ps) = ps := by
  induction ps with
  | nil => exact absurd rfl hne
  | cons p ps ih =>
    cases ps with
    | nil =>
      simp only [joinWith]
      exact splitChar_of_no_sep '\n' p (h p (List.mem_cons_self p []))
    | cons q qs =>
      have hp : '\n' ∉ p := h p (List.mem_cons_self p (q :: qs))
      have hrest : ∀ r ∈ q :: qs, '\n' ∉ r := fun r hr =>
        h r (List.mem_cons_of_mem p hr)
      simp only [joinWith]
      have : p ++ ['\n'] ++ joinWith ['\n'] (q :: qs) =
          p ++ '\n' :: joinWith ['\n'] (q :: qs) := by simp
      rw [this, splitChar_append_sep '\n' p _ hp, ih (by simp) hrest]

theorem collapse_idem (s : Str) : collapse (collapse s) = collapse s := by
  unfold collapse
  set kept := (splitChar '\n' s).filter (fun line => trimL line ≠ []) with hk
  by_cases hne : kept = []
  · simp [hne, joinWith, splitChar, trimL]
  · have hnosep : ∀ p ∈ kept, '\n' ∉ p := fun p hp =>
      splitChar_no_sep '\n' s p (List.mem_of_mem_filter hp)
    rw [splitChar_joinWith kept hne hnosep]
    have : kept.filter (fun line => trimL line ≠ []) = kept :=
      List.filter_eq_self.mpr (fun p hp => by
        have := List.of_mem_filter hp
        simpa using this)
    rw [this]

/-- Primitive context values: the elements of context arrays. -/
inductive Prim where
  | null : Prim
  | bool : Bool → Prim
  | num : ℚ → Prim
  | str : Str → Prim

/-- Context values: arbitrarily nested string-keyed mappings over strings,
numbers, booleans, `null`, and arrays of primitives (the context grammar the
engine is rendered against). JavaScript numbers are modelled as exact
rationals. -/
inductive Value where
  | null : Value
  | bool : Bool → Value
  | num : ℚ → Value
  | str : Str → Value
  | arr : List Prim → Value
  | obj : List (Str × Value) → Value

/-- A render context: the top-level string-keyed mapping. -/
abbrev Ctx := List (Str × Value)

/-- Decimal digits of a natural number (JavaScript integer printing). -/
def natToDigits (n : Nat) : Str := (Nat.repr n).data

/-- `String(i)` for an integer. -/
def intToStr (i : Int) : Str := (Int.repr i).data

/-- Smallest `k ≤ 40` with `den ∣ 10 ^ k`, used to print terminating
decimals the way JavaScript prints the doubles that arise here. -/
def decPow (den : Nat) : Option Nat :=
  (List.range 41).find? (fun k => 10 ^ k % den = 0)

/-- Fractional digits of `num` out of `10 ^ k`, with trailing zeros removed
(JavaScript prints the shortest decimal form). -/
def fracDigits (num : Nat) (k : Nat) : Str :=
  let ds := natToDigits num
  let padded := List.replicate (k - ds.length) '0' ++ ds
  (padded.reverse.dropWhile (fun c => c = '0')).reverse

/-- `String(n)` for a JavaScript number, modelled on exact rationals. Every
number reachable in the verified scenarios has a power-of-ten-compatible
denominator; the final fallback is outside the modelled double range. -/
def numToStr (q : ℚ) : Str :=
  if q.den = 1 then intToStr q.num
  else
    match decPow q.den with
    | some k =>
      let sign : Str := if q.num < 0 then ['-'] else []
      let scaled : Nat := q.num.natAbs * 10 ^ k / q.den
      sign ++ natToDigits (scaled / 10 ^ k) ++ '.' :: fracDigits (scaled % 10 ^ k) k
    | none => intToStr q.num ++ '/' :: natToDigits q.den

/-- Element stringification inside `Array.prototype.join` (and hence inside
`String(array)`): `null` becomes the empty string. -/
def primToStr : Prim → Str
  | .null => []
  | .bool true => strL "true"
  | .bool false => strL "false"
  | .num q => numToStr q
  | .str s => s

/-- `String(entry)` as used by `renderNodes` when joining array values:
unlike array `join`, a bare `String(null)` is the text `null`. -/
def primDisplay : Prim → Str
  | .null => strL "null"
  | .bool true => strL "true"
  | .bool false => strL "false"
  | .num q => numToStr q
  | .str s => s

/-- `String(v)`: JavaScript string coercion of a context value. -/
def jsToString : Value → Str
  | .null => strL "null"
  | .bool true => strL "true"
  | .bool false => strL "false"
  | .num q => numToStr q
  | .str s => s
  | .arr xs => joinWith [','] (xs.map primToStr)
  | .obj _ => strL "[object Object]"

/-- Numeric value of a string of decimal digits. -/
def natOfDigits (ds : Str) : Nat :=
  ds.foldl (fun acc c => acc * 10 + (c.toNat - '0'.toNat)) 0

/-- Hexadecimal digit test. -/
def isHexDigit (c : Char) : Bool :=
  isDigitC c || ('a' ≤ c && c ≤ 'f') || ('A' ≤ c && c ≤ 'F')

/-- Value of a hexadecimal digit. -/
def hexVal (c : Char) : Nat :=
  if isDigitC c then c.toNat - '0'.toNat
  else if 'a' ≤ c && c ≤ 'f' then c.toNat - 'a'.toNat + 10
  else c.toNat - 'A'.toNat + 10

/-- Numeric value of a string of digits in a given base. -/
def natOfBase (base : Nat) (ds : Str) : Nat :=
  ds.foldl (fun acc c => acc * base + hexVal c) 0

/-- Decimal part of string `ToNumber`: `[+-]? (digits [. digits?] | . digits)
([eE] [+-]? digits)?`, consuming the entire string. -/
def strToNumberDec (t : Str) : Option ℚ :=
  let signRest : ℚ × Str :=
    match t with
    | '-' :: r => (-1, r)
    | '+' :: r => (1, r)
    | r => (1, r)
  let sgn := signRest.1
  let ip := signRest.2.takeWhile isDigitC
  let rest1 := signRest.2.dropWhile isDigitC
  let mantissa : Option (ℚ × Str) :=
    match rest1 with
    | '.' :: r2 =>
      let fp := r2.takeWhile isDigitC
      let rest2 := r2.dropWhile isDigitC
      if ip = [] && fp = [] then none
      else some ((natOfDigits ip : ℚ) + (natOfDigits fp : ℚ) / 10 ^ fp.length, rest2)
    | _ => if ip = [] then none else some ((natOfDigits ip : ℚ), rest1)
  match mantissa with
  | none => none
  | some (m, rest2) =>
    match rest2 with
    | [] => some (sgn * m)
    | e :: r3 =>
      if e = 'e' || e = 'E' then
        let expSign : Int × Str :=
          match r3 with
          | '-' :: r4 => (-1, r4)
          | '+' :: r4 => (1, r4)
          | r4 => (1, r4)
        let ds := expSign.2
        if ds ≠ [] && ds.all isDigitC && ds.dropWhile isDigitC = [] then
          some (sgn * m * (10 : ℚ) ^ (expSign.1 * (natOfDigits ds : Int)))
        else none
      else none

/-- JavaScript `ToNumber` on strings: trimmed empty is `0`; otherwise a
decimal literal with optional sign, fraction, and exponent, or an unsigned
`0x`/`0o`/`0b` literal; anything else (including `Infinity`, which lies
outside the modelled range) is `NaN`, encoded as `none`. -/
def strToNumber (s : Str) : Option ℚ :=
  let t := trimL s
  if t = [] then some 0
  else
    match t with
    | '0' :: x :: hs =>
      if (x = 'x' || x = 'X') && hs ≠ [] && hs.all isHexDigit then
        some (natOfBase 16 hs)
      else if (x = 'o' || x = 'O') && hs ≠ [] && hs.all (fun c => '0' ≤ c && c ≤ '7') then
        some (natOfBase 8 hs)
      else if (x = 'b' || x = 'B') && hs ≠ [] && hs.all (fun c => c = '0' || c = '1') then
        some (natOfBase 2 hs)
      else strToNumberDec t
    | _ => strToNumberDec t

/-- `Number(v)`: JavaScript numeric coercion, `none` for `NaN`. -/
def jsToNumber : Value → Option ℚ
  | .null => some 0
  | .bool b => some (if b then 1 else 0)
  | .num q => some q
  | .str s => strToNumber s
  | .arr xs => strToNumber (joinWith [','] (xs.map primToStr))
  | .obj _ => none

/-- The engine's `isTruthy`. -/
def isTruthy : Value → Bool
  | .null => false
  | .bool b => b
  | .str s => (trimL s).length > 0
  | .arr xs => xs.length > 0
  | .num q => q ≠ 0
  | .obj _ => true

/-- Plain JavaScript `Boolean(v)` coercion (used by the `length` modifier's
truthiness test, where `"  "` is truthy and `[]` is truthy). -/
def jsBool : Value → Bool
  | .null => false
  | .bool b => b
  | .num q => q ≠ 0
  | .str s => s ≠ []
  | .arr _ => true
  | .obj _ => true

/-- The `FORBIDDEN_PATHS` denylist of unsafe attribute-style segments. -/
def FORBIDDEN_PATHS : List Str :=
  [strL "__class__", strL "__bases__", strL "__mro__", strL "__subclasses__",
   strL "__init__", strL "__new__", strL "__dict__", strL "__slots__",
   strL "__getattr__", strL "__setattr__", strL "__delattr__",
   strL "__getattribute__", strL "__globals__", strL "__code__",
   strL "__builtins__", strL "__import__", strL "__call__", strL "__reduce__",
   strL "__module__", strL "__weakref__", strL "__annotations__",
   strL "_sa_instance_state"]

/-- First value bound to a key in an object literal. -/
def lookupField (k : Str) : List (Str × Value) → Option Value
  | [] => none
  | (k', v) :: fs => if k' = k then some v else lookupField k fs

/-- Canonical array-index property names: digit strings without a spurious
leading zero. -/
def canonicalIndex (s : Str) : Option Nat :=
  if s ≠ [] && s.all isDigitC && (s = ['0'] || s.head? ≠ some '0') then
    some (natOfDigits s)
  else none

/-- Inject a primitive into the value type. -/
def primToValue : Prim → Value
  | .null => .null
  | .bool b => .bool b
  | .num q => .num q
  | .str s => .str s

/-- The guard `typeof value === 'object' && value !== null && part in value`
followed by the property read, for own properties of the modelled data
(objects by key; arrays by canonical index or `length`). -/
def objGet (v : Value) (part : Str) : Option Value :=
  match v with
  | .obj fs => lookupField part fs
  | .arr xs =>
    if part = strL "length" then some (.num xs.length)
    else
      match canonicalIndex part with
      | some i => if h : i < xs.length then some (primToValue (xs.get ⟨i, h⟩)) else none
      | none => none
  | _ => none

/-- The segment walk inside `getValueWithExists`. -/
def walkPath : List Str → Value → Value × Bool
  | [], v => (v, true)
  | p :: ps, v =>
    if p ∈ FORBIDDEN_PATHS || p.head? = some '_' then (Value.null, false)
    else
      match objGet v p with
      | some v' => walkPath ps v'
      | none => (Value.null, false)

/-- `getValueWithExists`: dotted-path resolution with an existence flag. -/
def getValueWithExists (path : Str) (ctx : Ctx) : Value × Bool :=
  walkPath (splitChar '.' path) (Value.obj ctx)

/-- `getValue`: dotted-path resolution, `null` when absent. -/
def getValue (path : Str) (ctx : Ctx) : Value :=
  (getValueWithExists path ctx).1

/-- The single-quote character. -/
def squote : Char := Char.ofNat 39

/-- The double-quote character. -/
def dquote : Char := Char.ofNat 34

/-- The two sequential depth updates of the `smartSplit` loop: `(` increments,
then `)` decrements floored at zero (`Math.max(0, depth - 1)` is the truncated
`Nat` subtraction). -/
def parenDepth (c : Char) (depth : Nat) : Nat :=
  if c = ')' then (if c = '(' then depth + 1 else depth) - 1
  else (if c = '(' then depth + 1 else depth)

/-- The character loop of `smartSplit`: quote characters toggle their own
flag only while the other quote flag is off; parentheses adjust the depth
counter only outside quotes; the delimiter splits only outside quotes at
depth zero, where the depth update of the current character has already
happened. -/
def smartSplitAux (d : Char) (inS inD : Bool) (depth : Nat) (cur : Str) :
    Str → List Str
  | [] => if cur = [] then [] else [cur]
  | c :: cs =>
    if c = squote ∧ inD = false then
      smartSplitAux d (!inS) inD depth (cur ++ [c]) cs
    else if c = dquote ∧ inS = false then
      smartSplitAux d inS (!inD) depth (cur ++ [c]) cs
    else if inS = false ∧ inD = false then
      if c = d ∧ parenDepth c depth = 0 then
        cur :: smartSplitAux d inS inD (parenDepth c depth) [] cs
      else smartSplitAux d inS inD (parenDepth c depth) (cur ++ [c]) cs
    else smartSplitAux d inS inD depth (cur ++ [c]) cs

/-- `smartSplit`: split on un-quoted, un-nested delimiter occurrences. -/
def smartSplit (input : Str) (d : Char) : List Str :=
  smartSplitAux d false false 0 [] input

theorem smartSplitAux_eq_nil (d : Char) (cs : Str) :
    ∀ inS inD depth cur, smartSplitAux d inS inD depth cur cs = [] →
      cur = [] ∧ cs = [] := by
  induction cs with
  | nil =>
    intro inS inD depth cur h
    by_cases hc : cur = []
    · exact ⟨hc, rfl⟩
    · rw [smartSplitAux, if_neg hc] at h
      exact absurd h (by simp)
  | cons c cs ih =>
    intro inS inD depth cur h
    rw [smartSplitAux] at h
    split_ifs at h with h1 h2 h3 h4
    · exact absurd (ih _ _ _ _ h).1 (by simp)
    · exact absurd (ih _ _ _ _ h).1 (by simp)
    · exact absurd (ih _ _ _ _ h).1 (by simp)
    · exact absurd (ih _ _ _ _ h).1 (by simp)

theorem joinWith_cons_cons (sep : Str) (p r : Str) (rs : List Str) :
    joinWith sep (p :: r :: rs) = p ++ sep ++ joinWith sep (r :: rs) := rfl

theorem smartSplitAux_join (d : Char) (cs : Str) :
    ∀ inS inD depth cur,
      joinWith [d] (smartSplitAux d inS inD depth cur cs) = cur ++ cs ∨
      joinWith [d] (smartSplitAux d inS inD depth cur cs) ++ [d] = cur ++ cs := by
  induction cs with
  | nil =>
    intro inS inD depth cur
    by_cases hc : cur = []
    · left; rw [smartSplitAux, if_pos hc, hc]; rfl
    · left; rw [smartSplitAux, if_neg hc]; simp [joinWith]
  | cons c cs ih =>
    intro inS inD depth cur
    rw [smartSplitAux]
    split_ifs with h1 h2 h3 h4
    · rcases ih (!inS) inD depth (cur ++ [c]) with h | h <;> rw [h] <;> simp
    · rcases ih inS (!inD) depth (cur ++ [c]) with h | h <;> rw [h] <;> simp
    · rcases hd : smartSplitAux d inS inD (parenDepth c depth) [] cs
        with _ | ⟨r, rs⟩
      · have hcs := (smartSplitAux_eq_nil d cs _ _ _ _ hd).2
        right
        simp [joinWith, hcs, h4.1]
      · rw [joinWith_cons_cons]
        rcases hd ▸ ih inS inD (parenDepth c depth) [] with h | h
        · left; rw [h]; simp [h4.1]
        · right
          have hassoc : cur ++ [d] ++ joinWith [d] (r :: rs) ++ [d] =
              cur ++ [d] ++ (joinWith [d] (r :: rs) ++ [d]) := by simp
          rw [hassoc, h]; simp [h4.1]
    · rcases ih inS inD (parenDepth c depth) (cur ++ [c]) with h | h <;>
        rw [h] <;> simp
    · rcases ih inS inD depth (cur ++ [c]) with h | h <;> rw [h] <;> simp

/-- Reconstruction: joining the fragments with the delimiter gives back the
input, up to one trailing delimiter (whose empty fragment is dropped). -/
theorem smartSplit_join (input : Str) (d : Char) :
    joinWith [d] (smartSplit input d) = input ∨
    joinWith [d] (smartSplit input d) ++ [d] = input := by
  simpa using smartSplitAux_join d input false false 0 []

/-- The regex `^([a-zA-Z_]\w*)\((.*)\)$` over a trimmed modifier: an
identifier, an opening parenthesis, any non-line-terminator run, and a
closing parenthesis as the final character. -/
def matchModifierCall (value : Str) : Option (Str × Str) :=
  match value with
  | [] => none
  | c :: rest =>
    if isIdentStart c then
      let run := rest.takeWhile isWordChar
      let after := rest.dropWhile isWordChar
      match after with
      | '(' :: tl =>
        if tl.getLast? = some ')' ∧ tl.dropLast.all (fun a => ¬ isLineTerm a) then
          some (c :: run, tl.dropLast)
        else none
      | _ => none
    else none

/-- `parseVariable`: split the braced content on un-quoted `|`, trim the
path, and parse each modifier into a `(name, optional raw argument)` pair. -/
def parseVariable (content : Str) : Str × List (Str × Option Str) :=
  let parts := smartSplit content '|'
  let path := match parts with | [] => [] | p :: _ => trimL p
  let modifiers := (parts.drop 1).map (fun part =>
    let value := trimL part
    match matchModifierCall value with
    | some (name, args) => (name, some args)
    | none => (value, none))
  (path, modifiers)

/-- Index of the first occurrence of a character in a string. -/
def firstIdxOf (c : Char) : Str → Option Nat
  | [] => none
  | x :: xs => if x = c then some 0 else (firstIdxOf c xs).map (· + 1)

/-- First `}` at index at least 1: the lazy `(.+?)\}` must capture at least
one character before its closing brace. -/
def firstCloseIdx (s : Str) : Option Nat :=
  match s with
  | [] => none
  | _ :: t => (firstIdxOf '}' t).map (· + 1)

/-- Backtracking over the greedy `\s+` of `\{if\s+(.+?)\}`: the longest
whitespace run is tried first; for a given run the lazy capture is everything
before the first `}` at least one character later, and the regex `.` rejects
line terminators inside the capture. Returns the capture and the characters
consumed after the keyword. -/
def condCapture (rest : Str) : Nat → Option (Str × Nat)
  | 0 => none
  | w + 1 =>
    let after := rest.drop (w + 1)
    match firstCloseIdx after with
    | some j =>
      if (after.take j).all (fun a => !isLineTerm a) then
        some (after.take j, w + 1 + j + 1)
      else condCapture rest w
    | none => condCapture rest w

/-- Match `^\{keyword\s+(.+?)\}` case-insensitively at the start of the
input, returning the raw capture and the total number of characters
consumed. -/
def matchCond (keyword : Str) (cs : Str) : Option (Str × Nat) :=
  match cs with
  | '{' :: body =>
    if ciPrefix keyword body then
      let rest := body.drop keyword.length
      let m := (rest.takeWhile isJsSpace).length
      if m = 0 then none
      else
        match condCapture rest m with
        | some (cap, n) => some (cap, 1 + keyword.length + n)
        | none => none
    else none
  | _ => none

/-- Match `^\{else\}` case-insensitively (6 characters): the brace matches
literally even under the `/i` flag, the letters fold case. -/
def matchElse (cs : Str) : Bool :=
  match cs with
  | '{' :: body => ciPrefix (strL "else\x7d") body
  | _ => false

/-- Match `^\{\/if\}` case-insensitively (5 characters). -/
def matchEndif (cs : Str) : Bool :=
  match cs with
  | '{' :: body => ciPrefix (strL "/if\x7d") body
  | _ => false

/-- Match `^\{([a-zA-Z_][a-zA-Z0-9_.]*(?:\|[^}]+)?)\}` at the start of the
input: a braced path run optionally followed by a pipe and a non-empty run
of non-`}` characters. Returns the captured content and consumed length. -/
def matchVariable (cs : Str) : Option (Str × Nat) :=
  match cs with
  | '{' :: c :: rest =>
    if isIdentStart c then
      let run := rest.takeWhile isPathChar
      let after := rest.dropWhile isPathChar
      match after with
      | '}' :: _ => some (c :: run, 1 + 1 + run.length + 1)
      | '|' :: tl =>
        let inner := tl.takeWhile (fun a => a ≠ '}')
        if inner ≠ [] ∧ inner.length < tl.length then
          some (c :: run ++ '|' :: inner,
                1 + 1 + run.length + 1 + inner.length + 1)
        else none
      | _ => none
    else none
  | _ => none

/-- The token alphabet produced by `tokenize`. -/
inductive TemplateToken where
  | text : Str → TemplateToken
  | var : Str → List (Str × Option Str) → TemplateToken
  | ifT : Str → TemplateToken
  | elifT : Str → TemplateToken
  | elseT : TemplateToken
  | endifT : TemplateToken
deriving DecidableEq

/-- `tokenize`, fuel-indexed: at each position try `if`, `elif`, `else`,
`endif`, then the variable pattern, then an unmatched `{` as one-character
text, then a maximal run of non-`{` characters as text. Every branch
consumes at least one character, so fuel `template.length` suffices. -/
def tokenizeF : Nat → Str → List TemplateToken
  | 0, _ => []
  | fuel + 1, cs =>
    match cs with
    | [] => []
    | c :: rest =>
      match matchCond (strL "if") cs with
      | some (cap, n) => .ifT (trimL cap) :: tokenizeF fuel (cs.drop n)
      | none =>
        match matchCond (strL "elif") cs with
        | some (cap, n) => .elifT (trimL cap) :: tokenizeF fuel (cs.drop n)
        | none =>
          if matchElse cs then .elseT :: tokenizeF fuel (cs.drop 6)
          else if matchEndif cs then .endifT :: tokenizeF fuel (cs.drop 5)
          else
            match matchVariable cs with
            | some (content, n) =>
              .var (parseVariable content).1 (parseVariable content).2 ::
                tokenizeF fuel (cs.drop n)
            | none =>
              if c = '{' then .text ['{'] :: tokenizeF fuel rest
              else
                .text (cs.takeWhile (fun a => a ≠ '{')) ::
                  tokenizeF fuel (cs.drop ((cs.takeWhile (fun a => a ≠ '{')).length))

/-- `tokenize` with its sufficient fuel. -/
def tokenize (template : Str) : List TemplateToken :=
  tokenizeF template.length template

/-- The stop set a `parseBlock` call is bounded by. -/
structure ParseOpts where
  stopAtElif : Bool
  stopAtElse : Bool
  stopAtEndIf : Bool
deriving DecidableEq

/-- AST nodes: text, variable, and conditional (true branch, elif branches,
false branch). -/
inductive AstNode where
  | text : Str → AstNode
  | var : Str → List (Str × Option Str) → AstNode
  | ifNode : Str → List AstNode → List (Str × List AstNode) → List AstNode →
      AstNode

/-- The elif-collection loop inside `parseBlock`'s `if` case, parameterized
by the parser used for elif bodies (`parseBlock` with the elif/else/endif
bound, one fuel step down). Each iteration consumes the `elif` token. -/
def parseElifsF
    (pB : List TemplateToken → List AstNode × List TemplateToken) :
    Nat → List TemplateToken →
      List (Str × List AstNode) × List TemplateToken
  | 0, ts => ([], ts)
  | fuel + 1, ts =>
    match ts with
    | .elifT c :: rest =>
      ((c, (pB rest).1) :: (parseElifsF pB fuel ((pB rest).2)).1,
       (parseElifsF pB fuel ((pB rest).2)).2)
    | _ => ([], ts)

/-- The stop set bounding the true branch and each elif body. -/
def innerOpts : ParseOpts := ⟨true, true, true⟩

/-- The stop set bounding the else branch. -/
def elseOpts : ParseOpts := ⟨false, false, true⟩

/-- Tokens remaining after the true branch of an `if`. -/
def ifTrueRem
    (pB : ParseOpts → List TemplateToken → List AstNode × List TemplateToken)
    (rest : List TemplateToken) : List TemplateToken :=
  (pB innerOpts rest).2

/-- The elif loop of the `if` case, run after the true branch. -/
def ifElifs
    (pB : ParseOpts → List TemplateToken → List AstNode × List TemplateToken)
    (fuelE : Nat) (rest : List TemplateToken) :
    List (Str × List AstNode) × List TemplateToken :=
  parseElifsF (pB innerOpts) fuelE (ifTrueRem pB rest)

/-- The optional else branch: consume an `else` token and parse bounded by
`endif`, or produce an empty branch. -/
def ifFalse
    (pB : ParseOpts → List TemplateToken → List AstNode × List TemplateToken)
    (fuelE : Nat) (rest : List TemplateToken) :
    List AstNode × List TemplateToken :=
  match (ifElifs pB fuelE rest).2 with
  | .elseT :: r2 => pB elseOpts r2
  | _ => ([], (ifElifs pB fuelE rest).2)

/-- Consume the optional closing `endif`. -/
def ifRem
    (pB : ParseOpts → List TemplateToken → List AstNode × List TemplateToken)
    (fuelE : Nat) (rest : List TemplateToken) : List TemplateToken :=
  match (ifFalse pB fuelE rest).2 with
  | .endifT :: r3 => r3
  | _ => (ifFalse pB fuelE rest).2

/-- The `if`-token case of `parseBlock`: parse the true branch bounded by
elif/else/endif, collect elif branches, optionally parse an else branch
bounded by endif, optionally consume the closing `endif`, then continue the
enclosing block. `pB` is `parseBlock` one fuel step down. -/
def parseIfCase
    (pB : ParseOpts → List TemplateToken → List AstNode × List TemplateToken)
    (fuelE : Nat) (opts : ParseOpts) (c : Str) (rest : List TemplateToken) :
    List AstNode × List TemplateToken :=
  (.ifNode c (pB innerOpts rest).1 (ifElifs pB fuelE rest).1
      (ifFalse pB fuelE rest).1 :: (pB opts (ifRem pB fuelE rest)).1,
   (pB opts (ifRem pB fuelE rest)).2)

/-- `Parser.parseBlock`, fuel-indexed, returning the parsed prefix and the
remaining tokens (the mutable index of the source becomes the returned
suffix). Orphan `elif`/`else`/`endif` tokens outside their stop set are
skipped without producing a node. -/
def parseBlockF :
    Nat → ParseOpts → List TemplateToken →
      List AstNode × List TemplateToken
  | 0, _, ts => ([], ts)
  | fuel + 1, opts, ts =>
    match ts with
    | [] => ([], [])
    | t :: rest =>
      match t with
      | .text s =>
        (.text s :: (parseBlockF fuel opts rest).1,
         (parseBlockF fuel opts rest).2)
      | .var p m =>
        (.var p m :: (parseBlockF fuel opts rest).1,
         (parseBlockF fuel opts rest).2)
      | .ifT c => parseIfCase (parseBlockF fuel) fuel opts c rest
      | .elifT _ =>
        if opts.stopAtElif then ([], ts) else parseBlockF fuel opts rest
      | .elseT =>
        if opts.stopAtElse then ([], ts) else parseBlockF fuel opts rest
      | .endifT =>
        if opts.stopAtEndIf then ([], ts) else parseBlockF fuel opts rest

/-- `Parser.parse`: parse the whole token list with no stop set. -/
def parse (tokens : List TemplateToken) : List AstNode :=
  (parseBlockF tokens.length ⟨false, false, false⟩ tokens).1

/-- Case-sensitive prefix test (`needle` begins `hay`). -/
def hasPrefixCS : Str → Str → Bool
  | [], _ => true
  | _ :: _, [] => false
  | n :: ns, h :: hs => n = h && hasPrefixCS ns hs

/-- Try to match the split regex `\s+word\s+` at the current position: a
whitespace run, the word case-insensitively, and a second whitespace run,
all non-empty. Because the word starts with a letter, only the maximal
first run can be followed by the word, so no further backtracking arises.
Returns the number of characters consumed. -/
def matchWordSep (word : Str) (cs : Str) : Option Nat :=
  let m := (cs.takeWhile isJsSpace).length
  if m = 0 then none
  else
    let afterWs := cs.drop m
    if ciPrefix word afterWs then
      let afterWord := afterWs.drop word.length
      let v := (afterWord.takeWhile isJsSpace).length
      if v = 0 then none else some (m + word.length + v)
    else none

/-- JavaScript `String.split` on the regex `\s+word\s+` (case-insensitive):
scan left to right, splitting at each leftmost separator match; a separator
at the very end leaves a final empty fragment. Fuel of one unit per input
character suffices since every step consumes at least one character. -/
def splitWordAuxF (word : Str) : Nat → Str → Str → List Str
  | 0 => fun cur _ => [cur]
  | fuel + 1 => fun cur cs =>
    match matchWordSep word cs with
    | some n => cur :: splitWordAuxF word fuel [] (cs.drop n)
    | none =>
      match cs with
      | [] => [cur]
      | c :: rest => splitWordAuxF word fuel (cur ++ [c]) rest

/-- Split a string on the word separator regex. -/
def splitOnWord (word : Str) (s : Str) : List Str :=
  splitWordAuxF word s.length [] s

/-- The test `/^not\s+/i.test(normalized)`. -/
def notTest (n : Str) : Bool :=
  ciPrefix (strL "not") n && !((n.drop 3).takeWhile isJsSpace).isEmpty

/-- `normalized.replace(/^not\s+/i, '')`: strip `not` and the following
maximal whitespace run (only used when `notTest` holds). -/
def notStrip (n : Str) : Str := (n.drop 3).dropWhile isJsSpace

/-- Index of the first occurrence of a substring (JavaScript `indexOf`). -/
def firstIdxSub (needle : Str) : Str → Option Nat
  | [] => if needle = [] then some 0 else none
  | c :: t =>
    if hasPrefixCS needle (c :: t) then some 0
    else (firstIdxSub needle t).map (· + 1)

/-- The ordered comparison-operator list scanned by `evaluateCondition`. -/
def OPERATORS : List Str :=
  [strL ">=", strL "<=", strL "!=", strL "=", strL ">", strL "<",
   strL "~", strL "$", strL "^"]

/-- The operator-scan loop: the first operator in list order whose text
occurs anywhere in the condition, with the index of its first occurrence. -/
def findOp : List Str → Str → Option (Str × Nat)
  | [], _ => none
  | op :: ops, n =>
    match firstIdxSub op n with
    | some i => some (op, i)
    | none => findOp ops n

/-- The numeral regex `^-?\d+(\.\d+)?$`. -/
def isNumeral (n : Str) : Bool :=
  let body := match n with | '-' :: r => r | r => r
  let ip := body.takeWhile isDigitC
  let rest := body.dropWhile isDigitC
  match rest with
  | [] => !ip.isEmpty
  | '.' :: fp => !ip.isEmpty && !fp.isEmpty && fp.all isDigitC
  | _ => false

/-- `Number.parseInt(n, 10)` on a trimmed string: optional sign, then the
leading digit run. -/
def parseIntL (n : Str) : ℚ :=
  match n with
  | '-' :: r => -(natOfDigits (r.takeWhile isDigitC) : ℚ)
  | r => (natOfDigits (r.takeWhile isDigitC) : ℚ)

/-- The unsigned decimal value read by `parseFloat` (the engine only calls
it on strings matching the numeral regex, which carry no exponent). -/
def decValue (r : Str) : ℚ :=
  let ip := r.takeWhile isDigitC
  let rest := r.dropWhile isDigitC
  match rest with
  | '.' :: fp0 =>
    let fp := fp0.takeWhile isDigitC
    (natOfDigits ip : ℚ) + (natOfDigits fp : ℚ) / 10 ^ fp.length
  | _ => (natOfDigits ip : ℚ)

/-- `Number.parseFloat` on a trimmed numeral string. -/
def parseFloatL (n : Str) : ℚ :=
  match n with
  | '-' :: r => -(decValue r)
  | r => decValue r

/-- The top-level membership test `normalized in context`. -/
def ctxHas (k : Str) (ctx : Ctx) : Bool := (lookupField k ctx).isSome

/-- The top-level read `context[normalized]`. -/
def ctxGet (k : Str) (ctx : Ctx) : Value := (lookupField k ctx).getD .null

/-- The guard `(startsWith('"') && endsWith('"')) || (startsWith(0x27) &&
endsWith(0x27))` of `resolveValue`. -/
def quoteGuard (n : Str) : Prop :=
  (n.head? = some dquote ∧ n.getLast? = some dquote) ∨
  (n.head? = some squote ∧ n.getLast? = some squote)

instance (n : Str) : Decidable (quoteGuard n) := by
  unfold quoteGuard
  infer_instance

/-- `resolveValue`: the literal/expression resolution ladder — empty, fully
quoted, numeral, boolean words, dotted path, direct context key, verbatim
text — returning at the first rule that applies. -/
def resolveValue (expression : Str) (ctx : Ctx) : Value :=
  let normalized := trimL expression
  if normalized = [] then .str []
  else if quoteGuard normalized then
    .str (normalized.drop 1).dropLast
  else if isNumeral normalized then
    if normalized.contains '.' then .num (parseFloatL normalized)
    else .num (parseIntL normalized)
  else if lowerL normalized = strL "true" then .bool true
  else if lowerL normalized = strL "false" then .bool false
  else if normalized.contains '.' then
    let resolved := getValueWithExists normalized ctx
    if resolved.2 then resolved.1 else .null
  else if ctxHas normalized ctx then ctxGet normalized ctx
  else .str normalized

/-- `String(v ?? '')`: string coercion with `null` coalesced to the empty
string first, as both comparison operands are prepared. -/
def jsToStringCo (v : Value) : Str :=
  match v with
  | .null => []
  | v => jsToString v

/-- `compareValues`: resolve both sides, compare case-insensitive string
forms for the string-class operators, then coerce to numbers (`false` on
`NaN`) for the numeric operators. -/
def compareValues (left op right : Str) (ctx : Ctx) : Bool :=
  let leftValue := resolveValue left ctx
  let rightValue := resolveValue right ctx
  let ls := lowerL (jsToStringCo leftValue)
  let rs := lowerL (jsToStringCo rightValue)
  if op = strL "=" then decide (ls = rs)
  else if op = strL "!=" then decide (ls ≠ rs)
  else if op = strL "~" then (firstIdxSub rs ls).isSome
  else if op = strL "$" then hasPrefixCS rs ls
  else if op = strL "^" then hasPrefixCS rs.reverse ls.reverse
  else
    match jsToNumber leftValue, jsToNumber rightValue with
    | some a, some b =>
      if op = strL ">" then decide (a > b)
      else if op = strL "<" then decide (a < b)
      else if op = strL ">=" then decide (a ≥ b)
      else if op = strL "<=" then decide (a ≤ b)
      else false
    | _, _ => false

/-- `evaluateCondition`, fuel-indexed: trim; split on `and` (all parts must
hold); otherwise split on `or` (some part must hold); otherwise strip a
leading `not`; otherwise scan the operator list and compare; otherwise take
the truthiness of the resolved value. Fuel `condition.length + 1` suffices
because every recursive call is on a strictly shorter string. -/
def evalCondF (ctx : Ctx) : Nat → Str → Bool
  | 0, _ => false
  | fuel + 1, condition =>
    let normalized := trimL condition
    if normalized = [] then false
    else
      let andParts := splitOnWord (strL "and") normalized
      if 1 < andParts.length then andParts.all (fun p => evalCondF ctx fuel p)
      else
        let orParts := splitOnWord (strL "or") normalized
        if 1 < orParts.length then orParts.any (fun p => evalCondF ctx fuel p)
        else if notTest normalized then !evalCondF ctx fuel (notStrip normalized)
        else
          match findOp OPERATORS normalized with
          | some (op, i) =>
            compareValues (trimL (normalized.take i)) op
              (trimL (normalized.drop (i + op.length))) ctx
          | none => isTruthy (resolveValue normalized ctx)

/-- `evaluateCondition` with its sufficient fuel. -/
def evaluateCondition (condition : Str) (ctx : Ctx) : Bool :=
  evalCondF ctx (condition.length + 1) condition

/-- `replaceAll`, fuel-indexed: non-overlapping leftmost replacement; an
empty needle inserts the replacement between every character and at both
ends, as in JavaScript. One fuel unit per input character plus one
suffices. -/
def replaceAllF (needle repl : Str) : Nat → Str → Str
  | 0, s => s
  | fuel + 1, s =>
    if needle = [] then
      match s with
      | [] => repl
      | c :: rest => repl ++ c :: replaceAllF needle repl fuel rest
    else
      match s with
      | [] => []
      | c :: rest =>
        if hasPrefixCS needle (c :: rest) then
          repl ++ replaceAllF needle repl fuel ((c :: rest).drop needle.length)
        else c :: replaceAllF needle repl fuel rest

/-- `String.prototype.replaceAll` with its sufficient fuel. -/
def replaceAllL (s needle repl : Str) : Str :=
  replaceAllF needle repl (s.length + 1) s

/-- `escapeHtml`: the five sequential `replaceAll` calls. -/
def escapeHtml (value : Str) : Str :=
  replaceAllL (replaceAllL (replaceAllL (replaceAllL (replaceAllL value
    (strL "&") (strL "&amp;"))
    (strL "<") (strL "&lt;"))
    (strL ">") (strL "&gt;"))
    [dquote] (strL "&quot;"))
    [squote] (strL "&#x27;")

/-- The unit names of `formatBytes`. -/
def byteUnits : List Str :=
  [strL "B", strL "KB", strL "MB", strL "GB", strL "TB", strL "PB"]

/-- The division loop of `formatBytes`: at most five iterations since the
unit index is bounded. -/
def formatBytesLoop : Nat → ℚ → Nat → ℚ × Nat
  | 0, v, i => (v, i)
  | f + 1, v, i =>
    if 1000 ≤ v ∧ i < 5 then formatBytesLoop f (v / 1000) (i + 1) else (v, i)

/-- `Number.prototype.toFixed(1)` for the non-negative rationals reached by
`formatBytes`: nearest tenth, ties rounded up. -/
def toFixed1 (v : ℚ) : Str :=
  let n := (⌊v * 10 + 1 / 2⌋).toNat
  natToDigits (n / 10) ++ '.' :: natToDigits (n % 10)

/-- `formatBytes`: `0 B` for missing, non-positive, or non-numeric sizes,
otherwise divide by 1000 up to the petabyte unit and print one decimal. -/
def formatBytes (size : Value) : Str :=
  match jsToNumber size with
  | none => strL "0 B"
  | some bytes =>
    if bytes ≤ 0 then strL "0 B"
    else
      let r := formatBytesLoop 5 bytes 0
      toFixed1 r.1 ++ ' ' :: byteUnits.getD r.2 (strL "B")

/-- `String(n).padStart(2, '0')` for the time components. -/
def pad2 (n : Int) : Str :=
  let ds := intToStr n
  List.replicate (2 - ds.length) '0' ++ ds

/-- `formatTime`: empty for missing, non-positive, or non-numeric seconds,
otherwise `HH:MM:SS` when hours are present and `MM:SS` otherwise. -/
def formatTime (secondsInput : Value) : Str :=
  match jsToNumber secondsInput with
  | none => []
  | some seconds =>
    if seconds ≤ 0 then []
    else
      let hours : Int := ⌊seconds / 3600⌋
      let minutes : Int := ⌊(seconds - 3600 * (hours : ℚ)) / 60⌋
      let remaining : Int := ⌊seconds - 60 * ((⌊seconds / 60⌋ : Int) : ℚ)⌋
      if 0 < hours then pad2 hours ++ ':' :: pad2 minutes ++ ':' :: pad2 remaining
      else pad2 minutes ++ ':' :: pad2 remaining

/-- The global replace over `/\w\S*/g` used by the `title` modifier: each
match starts at a word character and extends through non-whitespace; its
head is upper-cased and its tail lower-cased. -/
def titleCaseF : Nat → Str → Str
  | 0, s => s
  | fuel + 1, s =>
    match s with
    | [] => []
    | c :: rest =>
      if isWordChar c then
        c.toUpper :: lowerL (rest.takeWhile (fun a => !isJsSpace a)) ++
          titleCaseF fuel (rest.drop ((rest.takeWhile (fun a => !isJsSpace a)).length))
      else c :: titleCaseF fuel rest

/-- `title` modifier body with its sufficient fuel. -/
def titleCase (s : Str) : Str := titleCaseF s.length s

/-- The argument cleanup `.trim().replace(/^['\"]|['\"]$/g, '')`: one
leading and one trailing quote of either kind are removed. -/
def stripQuoteEnds (s : Str) : Str :=
  let s1 :=
    match s with
    | c :: rest => if c = squote ∨ c = dquote then rest else c :: rest
    | [] => []
  match s1.getLast? with
  | some c => if c = squote ∨ c = dquote then s1.dropLast else s1
  | none => s1

/-- `Number.parseInt(s, 10)`: trim, optional sign, leading digit run;
`none` for `NaN`. -/
def jsParseInt (s : Str) : Option Int :=
  let t := trimL s
  match t with
  | '-' :: r =>
    let ds := r.takeWhile isDigitC
    if ds = [] then none else some (-(natOfDigits ds : Int))
  | '+' :: r =>
    let ds := r.takeWhile isDigitC
    if ds = [] then none else some (natOfDigits ds : Int)
  | r =>
    let ds := r.takeWhile isDigitC
    if ds = [] then none else some (natOfDigits ds : Int)

/-- `applyModifier`: the modifier table of the engine. Unknown modifier
names return the value unchanged. -/
def applyModifier (value : Value) (modifier : Str) (arg : Option Str) :
    Value :=
  let name := lowerL modifier
  if name = strL "bytes" then .str (formatBytes value)
  else if name = strL "time" then .str (formatTime value)
  else if name = strL "upper" then .str ((jsToStringCo value).map Char.toUpper)
  else if name = strL "lower" then .str (lowerL (jsToStringCo value))
  else if name = strL "title" then .str (titleCase (jsToStringCo value))
  else if name = strL "first" then
    match value with
    | .arr (x :: _) => primToValue x
    | _ => .str []
  else if name = strL "last" then
    match value with
    | .arr xs =>
      match xs.getLast? with
      | some x => primToValue x
      | none => .str []
    | _ => .str []
  else if name = strL "length" then
    if jsBool value then
      match value with
      | .arr xs => .num xs.length
      | .str s => .num s.length
      | _ => .num 0
    else .num 0
  else if name = strL "exists" then
    .bool (match value with | .null => false | _ => true)
  else if name = strL "escape" ∨ name = strL "e" then
    .str (escapeHtml (jsToStringCo value))
  else if name = strL "join" then
    let separator :=
      match arg with
      | some a => if a = [] then strL ", " else stripQuoteEnds (trimL a)
      | none => strL ", "
    match value with
    | .arr xs => .str (joinWith separator (xs.map primDisplay))
    | _ => .str (jsToStringCo value)
  else if name = strL "truncate" then
    match jsParseInt (arg.getD []) with
    | none => .str (jsToStringCo value)
    | some len =>
      if len ≤ 0 then .str (jsToStringCo value)
      else
        let text := jsToStringCo value
        if len < (text.length : Int) then
          .str (text.take len.toNat ++ strL "...")
        else .str text
  else if name = strL "replace" then
    let parts := smartSplit (arg.getD []) ','
    let before := stripQuoteEnds (trimL (parts.getD 0 []))
    let after := stripQuoteEnds (trimL (parts.getD 1 []))
    .str (replaceAllL (jsToStringCo value) before after)
  else value

/-- The first elif branch whose condition holds, rendered; the loop inside
the conditional case of `renderNodes`. -/
def firstElif (render : List AstNode → Ctx → Str) :
    List (Str × List AstNode) → Ctx → Option Str
  | [], _ => none
  | b :: bs, ctx =>
    if evaluateCondition b.1 ctx then some (render b.2 ctx)
    else firstElif render bs ctx

/-- The chunk loop of `renderNodes`, parameterized by the renderer used on
conditional branches (`renderNodes` one fuel step down). Returns the
concatenation of all chunks of the node list. -/
def chunksWith (render : List AstNode → Ctx → Str) :
    List AstNode → Ctx → Str
  | [], _ => []
  | node :: rest, ctx =>
    (match node with
     | .text s => s
     | .var path mods =>
       let value :=
         mods.foldl (fun v pm => applyModifier v pm.1 pm.2) (getValue path ctx)
       match value with
       | .arr xs => joinWith (strL ", ") (xs.map primDisplay)
       | .bool _ => []
       | .null => []
       | v => jsToString v
     | .ifNode c tb ebs fb =>
       if evaluateCondition c ctx then render tb ctx
       else
         match firstElif render ebs ctx with
         | some out => out
         | none => render fb ctx) ++ chunksWith render rest ctx

/-- `renderNodes`, fuel-indexed: every invocation ends by collapsing blank
lines out of its own joined chunks, including the recursive invocations on
conditional branches. Fuel bounds the conditional nesting depth. -/
def renderNodesF : Nat → List AstNode → Ctx → Str
  | 0, _, _ => []
  | fuel + 1, nodes, ctx => collapse (chunksWith (renderNodesF fuel) nodes ctx)

mutual

/-- Size of an AST node: one per node, counting all nested branches. The
conditional nesting depth is bounded by it, and it never exceeds the number
of tokens consumed, so the token count is a sufficient render fuel. -/
def astSize : AstNode → Nat
  | .text _ => 1
  | .var _ _ => 1
  | .ifNode _ tb ebs fb => 1 + astSizeList tb + astSizeElifs ebs + astSizeList fb

def astSizeList : List AstNode → Nat
  | [] => 0
  | n :: ns => astSize n + astSizeList ns

def astSizeElifs : List (Str × List AstNode) → Nat
  | [] => 0
  | (_, body) :: bs => astSizeList body + astSizeElifs bs

end

/-- `renderTemplatePreview` on the character-list model: the render fuel
`tokens.length + 1` strictly exceeds the AST size (`parse_size_le` below),
so by `renderNodesF_fuel` the rendering is fuel-independent. -/
def renderTemplatePreviewL (template : Str) (ctx : Ctx) : Str :=
  renderNodesF ((tokenize template).length + 1) (parse (tokenize template)) ctx

/-- `renderTemplatePreview`: tokenize, parse, render. -/
def renderTemplatePreview (template : String) (ctx : Ctx) : String :=
  String.mk (renderTemplatePreviewL template.data ctx)

/-- Modelled from the spec (render section): branch output is concatenated
raw, with no per-branch normalization. -/
def rawRenderF : Nat → List AstNode → Ctx → Str
  | 0, _, _ => []
  | fuel + 1, nodes, ctx => chunksWith (rawRenderF fuel) nodes ctx

/-- Modelled from the spec: join all chunks of the fully rendered tree and
apply the blank-line pass exactly once to the full concatenation. -/
def collapseOnceRender (template : String) (ctx : Ctx) : String :=
  String.mk (collapse (rawRenderF ((tokenize template.data).length + 1)
    (parse (tokenize template.data)) ctx))

theorem dropWhileLen {α : Type} (p : α → Bool) (l : List α) :
    (l.dropWhile p).length ≤ l.length := by
  induction l with
  | nil => simp
  | cons a l ih =>
    rw [List.dropWhile_cons]
    by_cases h : p a = true
    · simp only [h, if_true]
      exact Nat.le_succ_of_le ih
    · simp [h]

theorem takeWhileLen {α : Type} (p : α → Bool) (l : List α) :
    (l.takeWhile p).length ≤ l.length := by
  induction l with
  | nil => simp
  | cons a l ih =>
    rw [List.takeWhile_cons]
    by_cases h : p a = true
    · simp only [h, if_true]
      simpa using ih
    · simp [h]

theorem trimL_length_le (s : Str) : (trimL s).length ≤ s.length := by
  unfold trimL
  calc ((s.dropWhile (fun c => isJsSpace c)).reverse.dropWhile
          (fun c => isJsSpace c)).reverse.length
      = ((s.dropWhile (fun c => isJsSpace c)).reverse.dropWhile
          (fun c => isJsSpace c)).length := List.length_reverse _
    _ ≤ (s.dropWhile (fun c => isJsSpace c)).reverse.length :=
        dropWhileLen _ _
    _ = (s.dropWhile (fun c => isJsSpace c)).length := List.length_reverse _
    _ ≤ s.length := dropWhileLen _ _

theorem ciPrefix_length_le (w s : Str) (h : ciPrefix w s = true) :
    w.length ≤ s.length := by
  induction w generalizing s with
  | nil => simp
  | cons a ws ih =>
    cases s with
    | nil => simp [ciPrefix] at h
    | cons c cs =>
      rw [ciPrefix, Bool.and_eq_true] at h
      simpa using ih cs h.2

theorem tokenizeF_nil (f : Nat) : tokenizeF f [] = [] := by
  cases f <;> rfl

theorem matchCond_pos (kw cs : Str) (cap : Str) (n : Nat)
    (h : matchCond kw cs = some (cap, n)) : 1 ≤ n := by
  unfold matchCond at h
  split at h
  · split_ifs at h
    try dsimp only at h
    split_ifs at h
    split at h
    · injection h with h1
      injection h1 with h2 h3
      omega
    · exact absurd h (by simp)
  · exact absurd h (by simp)

theorem matchVariable_pos (cs : Str) (cap : Str) (n : Nat)
    (h : matchVariable cs = some (cap, n)) : 1 ≤ n := by
  unfold matchVariable at h
  split at h
  · split_ifs at h
    try dsimp only at h
    split at h
    · injection h with h1
      injection h1 with h2 h3
      omega
    · try dsimp only at h
      split_ifs at h
      injection h with h1
      injection h1 with h2 h3
      omega
    · exact absurd h (by simp)
  · exact absurd h (by simp)

theorem tokenizeF_congr (bound : Nat) :
    ∀ cs : Str, cs.length ≤ bound → ∀ f g, cs.length ≤ f → cs.length ≤ g →
      tokenizeF f cs = tokenizeF g cs := by
  induction bound with
  | zero =>
    intro cs hcs f g _ _
    have : cs = [] := List.length_eq_zero.mp (Nat.le_zero.mp hcs)
    rw [this, tokenizeF_nil, tokenizeF_nil]
  | succ bound ih =>
    intro cs hcs f g hf hg
    cases cs with
    | nil => rw [tokenizeF_nil, tokenizeF_nil]
    | cons c rest =>
      obtain ⟨f', rfl⟩ : ∃ f', f = f' + 1 := ⟨f - 1, by simp at hf; omega⟩
      obtain ⟨g', rfl⟩ : ∃ g', g = g' + 1 := ⟨g - 1, by simp at hg; omega⟩
      have hlen : (c :: rest).length = rest.length + 1 := rfl
      have hstep : ∀ n, 1 ≤ n →
          ((c :: rest).drop n).length ≤ bound ∧
          ((c :: rest).drop n).length ≤ f' ∧
          ((c :: rest).drop n).length ≤ g' := by
        intro n hn
        rw [List.length_drop]
        simp only [hlen] at hcs hf hg ⊢
        omega
      rw [tokenizeF, tokenizeF]
      rcases hIf : matchCond (strL "if") (c :: rest) with _ | ⟨cap, n⟩
      · simp only [hIf]
        rcases hElif : matchCond (strL "elif") (c :: rest) with _ | ⟨cap, n⟩
        · simp only [hElif]
          by_cases hElse : matchElse (c :: rest) = true
          · obtain ⟨h1, h2, h3⟩ := hstep 6 (by omega)
            simp only [hElse, if_true]
            rw [ih _ h1 _ _ h2 h3]
          · simp only [hElse, if_false, Bool.false_eq_true]
            by_cases hEnd : matchEndif (c :: rest) = true
            · obtain ⟨h1, h2, h3⟩ := hstep 5 (by omega)
              simp only [hEnd, if_true]
              rw [ih _ h1 _ _ h2 h3]
            · simp only [hEnd, if_false, Bool.false_eq_true]
              rcases hVar : matchVariable (c :: rest) with _ | ⟨content, n⟩
              · simp only [hVar]
                by_cases hBrace : c = '{'
                · obtain ⟨h1, h2, h3⟩ := hstep 1 (by omega)
                  simp only [hBrace, if_true]
                  simp only [List.drop_succ_cons, List.drop_zero] at h1 h2 h3
                  rw [ih _ h1 _ _ h2 h3]
                · simp only [hBrace, if_false]
                  have hrun :
                      1 ≤ ((c :: rest).takeWhile (fun a => a ≠ '{')).length := by
                    rw [List.takeWhile_cons]
                    simp [hBrace]
                  obtain ⟨h1, h2, h3⟩ := hstep _ hrun
                  rw [ih _ h1 _ _ h2 h3]
              · obtain ⟨h1, h2, h3⟩ := hstep n (matchVariable_pos _ _ _ hVar)
                simp only [hVar]
                rw [ih _ h1 _ _ h2 h3]
        · obtain ⟨h1, h2, h3⟩ := hstep n (matchCond_pos _ _ _ _ hElif)
          simp only [hElif]
          rw [ih _ h1 _ _ h2 h3]
      · obtain ⟨h1, h2, h3⟩ := hstep n (matchCond_pos _ _ _ _ hIf)
        simp only [hIf]
        rw [ih _ h1 _ _ h2 h3]

/-- Fuel sufficiency for the tokenizer: any fuel of at least one unit per
character gives the same token stream. -/
theorem tokenize_fuel (cs : Str) (f : Nat) (h : cs.length ≤ f) :
    tokenizeF f cs = tokenize cs :=
  tokenizeF_congr cs.length cs le_rfl f cs.length h le_rfl

theorem parseElifsF_nil
    (pB : List TemplateToken → List AstNode × List TemplateToken) (f : Nat) :
    parseElifsF pB f [] = ([], []) := by
  cases f <;> rfl

theorem parseBlockF_nil (f : Nat) (opts : ParseOpts) :
    parseBlockF f opts [] = ([], []) := by
  cases f <;> rfl

theorem parseElifsF_shrink
    (pB : List TemplateToken → List AstNode × List TemplateToken)
    (hpB : ∀ ts, ((pB ts).2).length ≤ ts.length) :
    ∀ f ts, ((parseElifsF pB f ts).2).length ≤ ts.length := by
  intro f
  induction f with
  | zero => intro ts; exact le_rfl
  | succ f ihf =>
    intro ts
    cases ts with
    | nil => rw [parseElifsF_nil]
    | cons t rest =>
      cases t with
      | elifT c =>
        simp only [parseElifsF]
        calc ((parseElifsF pB f ((pB rest).2)).2).length
            ≤ ((pB rest).2).length := ihf _
          _ ≤ rest.length := hpB rest
          _ ≤ (TemplateToken.elifT c :: rest).length := by simp
      | text s => exact le_rfl
      | var p m => exact le_rfl
      | ifT c => exact le_rfl
      | elseT => exact le_rfl
      | endifT => exact le_rfl

theorem ifTrueRem_len
    (pB : ParseOpts → List TemplateToken → List AstNode × List TemplateToken)
    (hpB : ∀ o ts, ((pB o ts).2).length ≤ ts.length)
    (rest : List TemplateToken) :
    (ifTrueRem pB rest).length ≤ rest.length := hpB _ _

theorem ifElifs_len
    (pB : ParseOpts → List TemplateToken → List AstNode × List TemplateToken)
    (hpB : ∀ o ts, ((pB o ts).2).length ≤ ts.length)
    (fuelE : Nat) (rest : List TemplateToken) :
    ((ifElifs pB fuelE rest).2).length ≤ rest.length :=
  le_trans (parseElifsF_shrink (pB innerOpts) (hpB _) fuelE (ifTrueRem pB rest))
    (ifTrueRem_len pB hpB rest)

theorem ifFalse_len
    (pB : ParseOpts → List TemplateToken → List AstNode × List TemplateToken)
    (hpB : ∀ o ts, ((pB o ts).2).length ≤ ts.length)
    (fuelE : Nat) (rest : List TemplateToken) :
    ((ifFalse pB fuelE rest).2).length ≤ ((ifElifs pB fuelE rest).2).length := by
  unfold ifFalse
  split
  · rename_i r2 heq
    calc ((pB elseOpts r2).2).length
        ≤ r2.length := hpB _ _
      _ ≤ ((ifElifs pB fuelE rest).2).length := by rw [heq]; simp
  · exact le_rfl

theorem ifRem_len
    (pB : ParseOpts → List TemplateToken → List AstNode × List TemplateToken)
    (fuelE : Nat) (rest : List TemplateToken) :
    (ifRem pB fuelE rest).length ≤ ((ifFalse pB fuelE rest).2).length := by
  unfold ifRem
  split
  · rename_i r3 heq
    rw [heq]
    simp
  · exact le_rfl

theorem parseIfCase_shrink
    (pB : ParseOpts → List TemplateToken → List AstNode × List TemplateToken)
    (hpB : ∀ o ts, ((pB o ts).2).length ≤ ts.length)
    (fuelE : Nat) (opts : ParseOpts) (c : Str) (rest : List TemplateToken) :
    ((parseIfCase pB fuelE opts c rest).2).length ≤ rest.length := by
  unfold parseIfCase
  calc ((pB opts (ifRem pB fuelE rest)).2).length
      ≤ (ifRem pB fuelE rest).length := hpB _ _
    _ ≤ ((ifFalse pB fuelE rest).2).length := ifRem_len pB fuelE rest
    _ ≤ ((ifElifs pB fuelE rest).2).length := ifFalse_len pB hpB fuelE rest
    _ ≤ rest.length := ifElifs_len pB hpB fuelE rest

theorem parseBlockF_shrink :
    ∀ f opts ts, ((parseBlockF f opts ts).2).length ≤ ts.length := by
  intro f
  induction f with
  | zero => intro opts ts; exact le_rfl
  | succ f ihf =>
    intro opts ts
    cases ts with
    | nil => rw [parseBlockF_nil]
    | cons t rest =>
      cases t with
      | text s =>
        simp only [parseBlockF]
        exact le_trans (ihf opts rest) (by simp)
      | var p m =>
        simp only [parseBlockF]
        exact le_trans (ihf opts rest) (by simp)
      | ifT c =>
        simp only [parseBlockF]
        exact le_trans (parseIfCase_shrink (parseBlockF f) (fun o ts' => ihf o ts')
          f opts c rest) (by simp)
      | elifT c =>
        simp only [parseBlockF]
        by_cases hstop : opts.stopAtElif = true
        · simp [hstop]
        · simp only [hstop, if_false, Bool.false_eq_true]
          exact le_trans (ihf opts rest) (by simp)
      | elseT =>
        simp only [parseBlockF]
        by_cases hstop : opts.stopAtElse = true
        · simp [hstop]
        · simp only [hstop, if_false, Bool.false_eq_true]
          exact le_trans (ihf opts rest) (by simp)
      | endifT =>
        simp only [parseBlockF]
        by_cases hstop : opts.stopAtEndIf = true
        · simp [hstop]
        · simp only [hstop, if_false, Bool.false_eq_true]
          exact le_trans (ihf opts rest) (by simp)

theorem parseElifsF_congr
    (pB₁ pB₂ : List TemplateToken → List AstNode × List TemplateToken)
    (k : Nat)
    (hEq : ∀ ts, ts.length ≤ k → pB₁ ts = pB₂ ts)
    (hShrink : ∀ ts, ((pB₁ ts).2).length ≤ ts.length) :
    ∀ bound : Nat, ∀ ts : List TemplateToken, ts.length ≤ bound →
      ts.length ≤ k → ∀ f g, ts.length ≤ f → ts.length ≤ g →
        parseElifsF pB₁ f ts = parseElifsF pB₂ g ts := by
  intro bound
  induction bound with
  | zero =>
    intro ts hts _ f g _ _
    have : ts = [] := List.length_eq_zero.mp (Nat.le_zero.mp hts)
    rw [this, parseElifsF_nil, parseElifsF_nil]
  | succ bound ih =>
    intro ts hts htk f g hf hg
    cases ts with
    | nil => rw [parseElifsF_nil, parseElifsF_nil]
    | cons t rest =>
      have hrest : rest.length + 1 = (t :: rest).length := rfl
      obtain ⟨f', rfl⟩ : ∃ f', f = f' + 1 := ⟨f - 1, by omega⟩
      obtain ⟨g', rfl⟩ : ∃ g', g = g' + 1 := ⟨g - 1, by omega⟩
      cases t with
      | elifT c =>
        simp only [parseElifsF]
        have hbody : pB₁ rest = pB₂ rest := hEq rest (by omega)
        have hlen : ((pB₁ rest).2).length ≤ rest.length := hShrink rest
        rw [← hbody]
        rw [ih ((pB₁ rest).2) (by omega) (by omega) f' g' (by omega) (by omega)]
      | text s => rfl
      | var p m => rfl
      | ifT c => rfl
      | elseT => rfl
      | endifT => rfl

theorem ifTrueRem_congr
    (pB₁ pB₂ : ParseOpts → List TemplateToken → List AstNode × List TemplateToken)
    (k : Nat) (hEq : ∀ o ts, ts.length ≤ k → pB₁ o ts = pB₂ o ts)
    (rest : List TemplateToken) (hk : rest.length ≤ k) :
    ifTrueRem pB₁ rest = ifTrueRem pB₂ rest := by
  unfold ifTrueRem
  rw [hEq _ _ hk]

theorem ifElifs_congr
    (pB₁ pB₂ : ParseOpts → List TemplateToken → List AstNode × List TemplateToken)
    (k : Nat) (hEq : ∀ o ts, ts.length ≤ k → pB₁ o ts = pB₂ o ts)
    (hShrink : ∀ o ts, ((pB₁ o ts).2).length ≤ ts.length)
    (fe₁ fe₂ : Nat) (rest : List TemplateToken)
    (hk : rest.length ≤ k) (hf₁ : rest.length ≤ fe₁) (hf₂ : rest.length ≤ fe₂) :
    ifElifs pB₁ fe₁ rest = ifElifs pB₂ fe₂ rest := by
  unfold ifElifs
  rw [← ifTrueRem_congr pB₁ pB₂ k hEq rest hk]
  have hlen : (ifTrueRem pB₁ rest).length ≤ rest.length :=
    ifTrueRem_len pB₁ hShrink rest
  exact parseElifsF_congr (pB₁ innerOpts) (pB₂ innerOpts) k
    (fun ts hts => hEq innerOpts ts hts) (hShrink innerOpts)
    (ifTrueRem pB₁ rest).length (ifTrueRem pB₁ rest) le_rfl (by omega)
    fe₁ fe₂ (by omega) (by omega)

theorem ifFalse_congr
    (pB₁ pB₂ : ParseOpts → List TemplateToken → List AstNode × List TemplateToken)
    (k : Nat) (hEq : ∀ o ts, ts.length ≤ k → pB₁ o ts = pB₂ o ts)
    (hShrink : ∀ o ts, ((pB₁ o ts).2).length ≤ ts.length)
    (fe₁ fe₂ : Nat) (rest : List TemplateToken)
    (hk : rest.length ≤ k) (hf₁ : rest.length ≤ fe₁) (hf₂ : rest.length ≤ fe₂) :
    ifFalse pB₁ fe₁ rest = ifFalse pB₂ fe₂ rest := by
  unfold ifFalse
  rw [← ifElifs_congr pB₁ pB₂ k hEq hShrink fe₁ fe₂ rest hk hf₁ hf₂]
  have helen : ((ifElifs pB₁ fe₁ rest).2).length ≤ rest.length :=
    ifElifs_len pB₁ hShrink fe₁ rest
  split
  · rename_i r2 heq
    have hr2 : r2.length + 1 = ((ifElifs pB₁ fe₁ rest).2).length := by
      rw [heq]; rfl
    exact hEq elseOpts r2 (by omega)
  · rfl

theorem ifRem_congr
    (pB₁ pB₂ : ParseOpts → List TemplateToken → List AstNode × List TemplateToken)
    (k : Nat) (hEq : ∀ o ts, ts.length ≤ k → pB₁ o ts = pB₂ o ts)
    (hShrink : ∀ o ts, ((pB₁ o ts).2).length ≤ ts.length)
    (fe₁ fe₂ : Nat) (rest : List TemplateToken)
    (hk : rest.length ≤ k) (hf₁ : rest.length ≤ fe₁) (hf₂ : rest.length ≤ fe₂) :
    ifRem pB₁ fe₁ rest = ifRem pB₂ fe₂ rest := by
  unfold ifRem
  rw [← ifFalse_congr pB₁ pB₂ k hEq hShrink fe₁ fe₂ rest hk hf₁ hf₂]

theorem ifRem_len_rest
    (pB : ParseOpts → List TemplateToken → List AstNode × List TemplateToken)
    (hpB : ∀ o ts, ((pB o ts).2).length ≤ ts.length)
    (fuelE : Nat) (rest : List TemplateToken) :
    (ifRem pB fuelE rest).length ≤ rest.length :=
  le_trans (ifRem_len pB fuelE rest)
    (le_trans (ifFalse_len pB hpB fuelE rest) (ifElifs_len pB hpB fuelE rest))

theorem parseIfCase_congr
    (pB₁ pB₂ : ParseOpts → List TemplateToken → List AstNode × List TemplateToken)
    (k : Nat) (hEq : ∀ o ts, ts.length ≤ k → pB₁ o ts = pB₂ o ts)
    (hShrink : ∀ o ts, ((pB₁ o ts).2).length ≤ ts.length)
    (fe₁ fe₂ : Nat) (opts : ParseOpts) (c : Str) (rest : List TemplateToken)
    (hk : rest.length ≤ k) (hf₁ : rest.length ≤ fe₁) (hf₂ : rest.length ≤ fe₂) :
    parseIfCase pB₁ fe₁ opts c rest = parseIfCase pB₂ fe₂ opts c rest := by
  unfold parseIfCase
  have h1 : pB₁ innerOpts rest = pB₂ innerOpts rest := hEq _ _ hk
  have h2 := ifElifs_congr pB₁ pB₂ k hEq hShrink fe₁ fe₂ rest hk hf₁ hf₂
  have h3 := ifFalse_congr pB₁ pB₂ k hEq hShrink fe₁ fe₂ rest hk hf₁ hf₂
  have h4 := ifRem_congr pB₁ pB₂ k hEq hShrink fe₁ fe₂ rest hk hf₁ hf₂
  have hlen : (ifRem pB₁ fe₁ rest).length ≤ rest.length := by
    calc (ifRem pB₁ fe₁ rest).length
        ≤ ((ifFalse pB₁ fe₁ rest).2).length := ifRem_len pB₁ fe₁ rest
      _ ≤ ((ifElifs pB₁ fe₁ rest).2).length := ifFalse_len pB₁ hShrink fe₁ rest
      _ ≤ rest.length := ifElifs_len pB₁ hShrink fe₁ rest
  have h5 : pB₁ opts (ifRem pB₁ fe₁ rest) = pB₂ opts (ifRem pB₁ fe₁ rest) :=
    hEq _ _ (by omega)
  rw [h1, h2, h3, h5, h4]

theorem parseBlockF_congr :
    ∀ bound : Nat, ∀ ts : List TemplateToken, ts.length ≤ bound →
      ∀ opts f g, ts.length ≤ f → ts.length ≤ g →
        parseBlockF f opts ts = parseBlockF g opts ts := by
  intro bound
  induction bound with
  | zero =>
    intro ts hts opts f g _ _
    have : ts = [] := List.length_eq_zero.mp (Nat.le_zero.mp hts)
    rw [this, parseBlockF_nil, parseBlockF_nil]
  | succ bound ih =>
    intro ts hts opts f g hf hg
    cases ts with
    | nil => rw [parseBlockF_nil, parseBlockF_nil]
    | cons t rest =>
      have hrest : rest.length + 1 = (t :: rest).length := rfl
      obtain ⟨f', rfl⟩ : ∃ f', f = f' + 1 := ⟨f - 1, by omega⟩
      obtain ⟨g', rfl⟩ : ∃ g', g = g' + 1 := ⟨g - 1, by omega⟩
      have hEq : ∀ o ts', ts'.length ≤ rest.length →
          parseBlockF f' o ts' = parseBlockF g' o ts' := by
        intro o ts' hts'
        exact ih ts' (by omega) o f' g' (by omega) (by omega)
      cases t with
      | text s =>
        simp only [parseBlockF]
        rw [hEq opts rest le_rfl]
      | var p m =>
        simp only [parseBlockF]
        rw [hEq opts rest le_rfl]
      | ifT c =>
        simp only [parseBlockF]
        exact parseIfCase_congr (parseBlockF f') (parseBlockF g') rest.length
          hEq (fun o ts' => parseBlockF_shrink f' o ts') f' g' opts c rest
          le_rfl (by omega) (by omega)
      | elifT c =>
        simp only [parseBlockF]
        by_cases hstop : opts.stopAtElif = true
        · simp [hstop]
        · simp only [hstop, if_false, Bool.false_eq_true]
          rw [hEq opts rest le_rfl]
      | elseT =>
        simp only [parseBlockF]
        by_cases hstop : opts.stopAtElse = true
        · simp [hstop]
        · simp only [hstop, if_false, Bool.false_eq_true]
          rw [hEq opts rest le_rfl]
      | endifT =>
        simp only [parseBlockF]
        by_cases hstop : opts.stopAtEndIf = true
        · simp [hstop]
        · simp only [hstop, if_false, Bool.false_eq_true]
          rw [hEq opts rest le_rfl]

/-- Fuel sufficiency for the parser: any fuel of at least one unit per token
parses identically, reflecting that each `parseBlock` step strictly advances
the token index. -/
theorem parseBlockF_fuel (ts : List TemplateToken) (opts : ParseOpts)
    (f : Nat) (h : ts.length ≤ f) :
    parseBlockF f opts ts = parseBlockF ts.length opts ts :=
  parseBlockF_congr ts.length ts le_rfl opts f ts.length h le_rfl

theorem astSize_pos (n : AstNode) : 1 ≤ astSize n := by
  cases n <;> simp only [astSize] <;> omega

theorem astSizeList_cons (n : AstNode) (ns : List AstNode) :
    astSizeList (n :: ns) = astSize n + astSizeList ns := by
  simp [astSizeList]

theorem astSizeElifs_cons (c : Str) (body : List AstNode)
    (bs : List (Str × List AstNode)) :
    astSizeElifs ((c, body) :: bs) = astSizeList body + astSizeElifs bs := by
  simp [astSizeElifs]

theorem parseElifsF_size
    (pB : List TemplateToken → List AstNode × List TemplateToken)
    (hpB : ∀ ts, astSizeList ((pB ts).1) + ((pB ts).2).length ≤ ts.length) :
    ∀ f ts, astSizeElifs ((parseElifsF pB f ts).1) +
      ((parseElifsF pB f ts).2).length ≤ ts.length := by
  intro f
  induction f with
  | zero => intro ts; simp [parseElifsF, astSizeElifs]
  | succ f ihf =>
    intro ts
    cases ts with
    | nil => rw [parseElifsF_nil]; simp [astSizeElifs]
    | cons t rest =>
      cases t with
      | elifT c =>
        simp only [parseElifsF, astSizeElifs_cons]
        have h1 := hpB rest
        have h2 := ihf ((pB rest).2)
        simp only [List.length_cons]
        omega
      | text s => simp [parseElifsF, astSizeElifs]
      | var p m => simp [parseElifsF, astSizeElifs]
      | ifT c => simp [parseElifsF, astSizeElifs]
      | elseT => simp [parseElifsF, astSizeElifs]
      | endifT => simp [parseElifsF, astSizeElifs]

theorem ifFalse_size
    (pB : ParseOpts → List TemplateToken → List AstNode × List TemplateToken)
    (hpB : ∀ o ts, astSizeList ((pB o ts).1) + ((pB o ts).2).length ≤ ts.length)
    (fuelE : Nat) (rest : List TemplateToken) :
    astSizeList ((ifFalse pB fuelE rest).1) + ((ifFalse pB fuelE rest).2).length ≤
      ((ifElifs pB fuelE rest).2).length := by
  unfold ifFalse
  split
  · rename_i r2 heq
    have h1 := hpB elseOpts r2
    have h2 : ((ifElifs pB fuelE rest).2).length = r2.length + 1 := by
      rw [heq]; rfl
    omega
  · simp [astSizeList]

theorem parseIfCase_size
    (pB : ParseOpts → List TemplateToken → List AstNode × List TemplateToken)
    (hpB : ∀ o ts, astSizeList ((pB o ts).1) + ((pB o ts).2).length ≤ ts.length)
    (fuelE : Nat) (opts : ParseOpts) (c : Str) (rest : List TemplateToken) :
    astSizeList ((parseIfCase pB fuelE opts c rest).1) +
      ((parseIfCase pB fuelE opts c rest).2).length ≤ rest.length + 1 := by
  unfold parseIfCase
  simp only [astSizeList_cons]
  have hsz : astSize (.ifNode c (pB innerOpts rest).1 (ifElifs pB fuelE rest).1
      (ifFalse pB fuelE rest).1) =
      1 + astSizeList ((pB innerOpts rest).1) +
      astSizeElifs ((ifElifs pB fuelE rest).1) +
      astSizeList ((ifFalse pB fuelE rest).1) := by
    simp [astSize]
  have htb := hpB innerOpts rest
  have hebs : astSizeElifs ((ifElifs pB fuelE rest).1) +
      ((ifElifs pB fuelE rest).2).length ≤ (ifTrueRem pB rest).length := by
    unfold ifElifs
    exact parseElifsF_size (pB innerOpts) (fun ts => hpB innerOpts ts) fuelE _
  have htrem : astSizeList ((pB innerOpts rest).1) + (ifTrueRem pB rest).length ≤
      rest.length := htb
  have hfb := ifFalse_size pB hpB fuelE rest
  have hrem : (ifRem pB fuelE rest).length ≤ ((ifFalse pB fuelE rest).2).length := by
    unfold ifRem
    split
    · rename_i r3 heq
      rw [heq]
      simp
    · exact le_rfl
  have hk := hpB opts (ifRem pB fuelE rest)
  omega

theorem parseBlockF_size :
    ∀ f opts ts, astSizeList ((parseBlockF f opts ts).1) +
      ((parseBlockF f opts ts).2).length ≤ ts.length := by
  intro f
  induction f with
  | zero => intro opts ts; simp [parseBlockF, astSizeList]
  | succ f ihf =>
    intro opts ts
    cases ts with
    | nil => rw [parseBlockF_nil]; simp [astSizeList]
    | cons t rest =>
      cases t with
      | text s =>
        simp only [parseBlockF, astSizeList_cons]
        have h1 := ihf opts rest
        have h2 : astSize (AstNode.text s) = 1 := by simp [astSize]
        simp only [List.length_cons]
        omega
      | var p m =>
        simp only [parseBlockF, astSizeList_cons]
        have h1 := ihf opts rest
        have h2 : astSize (AstNode.var p m) = 1 := by simp [astSize]
        simp only [List.length_cons]
        omega
      | ifT c =>
        simp only [parseBlockF]
        have := parseIfCase_size (parseBlockF f) (fun o ts' => ihf o ts')
          f opts c rest
        simpa using this
      | elifT c =>
        simp only [parseBlockF]
        by_cases hstop : opts.stopAtElif = true
        · simp [hstop, astSizeList]
        · simp only [hstop, if_false, Bool.false_eq_true]
          have := ihf opts rest
          simp only [List.length_cons]
          omega
      | elseT =>
        simp only [parseBlockF]
        by_cases hstop : opts.stopAtElse = true
        · simp [hstop, astSizeList]
        · simp only [hstop, if_false, Bool.false_eq_true]
          have := ihf opts rest
          simp only [List.length_cons]
          omega
      | endifT =>
        simp only [parseBlockF]
        by_cases hstop : opts.stopAtEndIf = true
        · simp [hstop, astSizeList]
        · simp only [hstop, if_false, Bool.false_eq_true]
          have := ihf opts rest
          simp only [List.length_cons]
          omega

/-- The parsed tree is no larger than the token stream, so the token count
bounds the conditional nesting depth. -/
theorem parse_size_le (tokens : List TemplateToken) :
    astSizeList (parse tokens) ≤ tokens.length := by
  have := parseBlockF_size tokens.length ⟨false, false, false⟩ tokens
  unfold parse
  omega

theorem firstElif_congr (r₁ r₂ : List AstNode → Ctx → Str) (S : Nat)
    (h : ∀ ns ctx, astSizeList ns < S → r₁ ns ctx = r₂ ns ctx) :
    ∀ ebs ctx, astSizeElifs ebs < S →
      firstElif r₁ ebs ctx = firstElif r₂ ebs ctx := by
  intro ebs
  induction ebs with
  | nil => intro ctx _; rfl
  | cons b bs ih =>
    intro ctx hS
    obtain ⟨c, body⟩ := b
    rw [astSizeElifs_cons] at hS
    simp only [firstElif]
    by_cases hc : evaluateCondition c ctx = true
    · simp only [hc, if_true]
      rw [h body ctx (by omega)]
    · simp only [hc, if_false, Bool.false_eq_true]
      exact ih ctx (by omega)

theorem chunksWith_congr (r₁ r₂ : List AstNode → Ctx → Str) (S : Nat)
    (h : ∀ ns ctx, astSizeList ns < S → r₁ ns ctx = r₂ ns ctx) :
    ∀ nodes ctx, astSizeList nodes ≤ S →
      chunksWith r₁ nodes ctx = chunksWith r₂ nodes ctx := by
  intro nodes
  induction nodes with
  | nil => intro ctx _; rfl
  | cons node rest ih =>
    intro ctx hS
    rw [astSizeList_cons] at hS
    cases node with
    | text s =>
      simp only [chunksWith]
      rw [ih ctx (by have := astSize_pos (AstNode.text s); omega)]
    | var p m =>
      simp only [chunksWith]
      rw [ih ctx (by have := astSize_pos (AstNode.var p m); omega)]
    | ifNode c tb ebs fb =>
      have hsz : astSize (AstNode.ifNode c tb ebs fb) =
          1 + astSizeList tb + astSizeElifs ebs + astSizeList fb := by
        simp [astSize]
      simp only [chunksWith]
      have htail : chunksWith r₁ rest ctx = chunksWith r₂ rest ctx :=
        ih ctx (by omega)
      by_cases hc : evaluateCondition c ctx = true
      · simp only [hc, if_true]
        rw [h tb ctx (by omega), htail]
      · simp only [hc, if_false, Bool.false_eq_true]
        rw [firstElif_congr r₁ r₂ S h ebs ctx (by omega)]
        cases firstElif r₂ ebs ctx with
        | some out => rw [htail]
        | none => rw [h fb ctx (by omega), htail]

theorem renderNodesF_congr :
    ∀ S : Nat, ∀ nodes : List AstNode, astSizeList nodes ≤ S →
      ∀ ctx f g, astSizeList nodes < f → astSizeList nodes < g →
        renderNodesF f nodes ctx = renderNodesF g nodes ctx := by
  intro S
  induction S with
  | zero =>
    intro nodes hn ctx f g hf hg
    have hnil : nodes = [] := by
      cases nodes with
      | nil => rfl
      | cons n ns =>
        rw [astSizeList_cons] at hn
        have := astSize_pos n
        omega
    subst hnil
    obtain ⟨f', rfl⟩ : ∃ f', f = f' + 1 := ⟨f - 1, by omega⟩
    obtain ⟨g', rfl⟩ : ∃ g', g = g' + 1 := ⟨g - 1, by omega⟩
    rfl
  | succ S ih =>
    intro nodes hn ctx f g hf hg
    obtain ⟨f', rfl⟩ : ∃ f', f = f' + 1 := ⟨f - 1, by omega⟩
    obtain ⟨g', rfl⟩ : ∃ g', g = g' + 1 := ⟨g - 1, by omega⟩
    show collapse (chunksWith (renderNodesF f') nodes ctx) =
      collapse (chunksWith (renderNodesF g') nodes ctx)
    rw [chunksWith_congr (renderNodesF f') (renderNodesF g') (astSizeList nodes)
      (fun ns ctx' hns => ih ns (by omega) ctx' f' g' (by omega) (by omega))
      nodes ctx le_rfl]

/-- Fuel sufficiency for the renderer: any fuel strictly above the AST size
renders identically. -/
theorem renderNodesF_fuel (nodes : List AstNode) (ctx : Ctx) (f : Nat)
    (h : astSizeList nodes < f) :
    renderNodesF f nodes ctx = renderNodesF (astSizeList nodes + 1) nodes ctx :=
  renderNodesF_congr (astSizeList nodes) nodes le_rfl ctx f _ h (by omega)

theorem listAllCongr {α : Type} (l : List α) (f g : α → Bool)
    (h : ∀ x ∈ l, f x = g x) : l.all f = l.all g := by
  induction l with
  | nil => rfl
  | cons x xs ih =>
    simp only [List.all_cons]
    rw [h x (List.mem_cons_self x xs),
      ih (fun y hy => h y (List.mem_cons_of_mem x hy))]

theorem listAnyCongr {α : Type} (l : List α) (f g : α → Bool)
    (h : ∀ x ∈ l, f x = g x) : l.any f = l.any g := by
  induction l with
  | nil => rfl
  | cons x xs ih =>
    simp only [List.any_cons]
    rw [h x (List.mem_cons_self x xs),
      ih (fun y hy => h y (List.mem_cons_of_mem x hy))]

theorem matchWordSep_bounds (word cs : Str) (n : Nat)
    (h : matchWordSep word cs = some n) :
    word.length + 2 ≤ n ∧ n ≤ cs.length := by
  unfold matchWordSep at h
  try dsimp only at h
  split_ifs at h with h1 h2 h3
  injection h with hn
  have hm : 1 ≤ (cs.takeWhile isJsSpace).length := by omega
  have hmle : (cs.takeWhile isJsSpace).length ≤ cs.length := takeWhileLen _ _
  have hword : word.length ≤ (cs.drop ((cs.takeWhile isJsSpace).length)).length :=
    ciPrefix_length_le _ _ h2
  have hv1 : 1 ≤ (((cs.drop ((cs.takeWhile isJsSpace).length)).drop
      word.length).takeWhile isJsSpace).length := by omega
  have hvle : (((cs.drop ((cs.takeWhile isJsSpace).length)).drop
      word.length).takeWhile isJsSpace).length ≤
      ((cs.drop ((cs.takeWhile isJsSpace).length)).drop word.length).length :=
    takeWhileLen _ _
  simp only [List.length_drop] at hword hvle
  omega

theorem splitWordAuxF_nonempty (word : Str) (f : Nat) (cur cs : Str) :
    splitWordAuxF word f cur cs ≠ [] := by
  cases f with
  | zero => simp [splitWordAuxF]
  | succ f =>
    simp only [splitWordAuxF]
    cases h : matchWordSep word cs with
    | some n => simp
    | none =>
      cases cs with
      | nil => simp
      | cons c rest =>
        cases g : splitWordAuxF word f (cur ++ [c]) rest with
        | nil => exact absurd g (splitWordAuxF_nonempty word f (cur ++ [c]) rest)
        | cons p ps => simp [g]

theorem splitWordAuxF_len (word : Str) :
    ∀ f cur cs, ∀ p ∈ splitWordAuxF word f cur cs,
      p.length ≤ cur.length + cs.length := by
  intro f
  induction f with
  | zero =>
    intro cur cs p hp
    simp only [splitWordAuxF, List.mem_singleton] at hp
    subst hp
    omega
  | succ f ihf =>
    intro cur cs p hp
    simp only [splitWordAuxF] at hp
    cases hm : matchWordSep word cs with
    | some n =>
      rw [hm] at hp
      obtain ⟨hge, hle⟩ := matchWordSep_bounds word cs n hm
      rcases List.mem_cons.mp hp with hp | hp
      · subst hp; omega
      · have := ihf [] (cs.drop n) p hp
        simp only [List.length_drop, List.length_nil] at this
        omega
    | none =>
      rw [hm] at hp
      cases cs with
      | nil =>
        simp only [List.mem_singleton] at hp
        subst hp
        omega
      | cons c rest =>
        have := ihf (cur ++ [c]) rest p hp
        simp only [List.length_append, List.length_cons, List.length_nil,
          List.length_singleton] at this ⊢
        omega

theorem splitWordAuxF_len_sep (word : Str) :
    ∀ f cur cs, 2 ≤ (splitWordAuxF word f cur cs).length →
      ∀ p ∈ splitWordAuxF word f cur cs,
        p.length + word.length + 2 ≤ cur.length + cs.length := by
  intro f
  induction f with
  | zero =>
    intro cur cs h2
    simp [splitWordAuxF] at h2
  | succ f ihf =>
    intro cur cs h2 p hp
    simp only [splitWordAuxF] at hp h2
    cases hm : matchWordSep word cs with
    | some n =>
      rw [hm] at hp
      obtain ⟨hge, hle⟩ := matchWordSep_bounds word cs n hm
      rcases List.mem_cons.mp hp with hp | hp
      · subst hp; omega
      · have := splitWordAuxF_len word f [] (cs.drop n) p hp
        simp only [List.length_drop, List.length_nil] at this
        omega
    | none =>
      rw [hm] at hp h2
      cases cs with
      | nil =>
        simp only [List.length_singleton] at h2
        omega
      | cons c rest =>
        have := ihf (cur ++ [c]) rest h2 p hp
        simp only [List.length_append, List.length_cons, List.length_nil,
          List.length_singleton] at this ⊢
        omega

/-- Fragments produced by a `\s+word\s+` split that really split (two or more
fragments) are shorter than the input by the separator's length. -/
theorem splitOnWord_parts_lt (word s : Str)
    (h2 : 2 ≤ (splitOnWord word s).length) :
    ∀ p ∈ splitOnWord word s, p.length + word.length + 2 ≤ s.length := by
  intro p hp
  have := splitWordAuxF_len_sep word s.length [] s h2 p hp
  simpa using this

theorem notStrip_lt (n : Str) (h : notTest n = true) :
    (notStrip n).length < n.length := by
  unfold notTest at h
  rw [Bool.and_eq_true] at h
  have h3 : 3 ≤ n.length := by
    have := ciPrefix_length_le (strL "not") n h.1
    simpa using this
  unfold notStrip
  have := dropWhileLen isJsSpace (n.drop 3)
  simp only [List.length_drop] at this
  omega

theorem evalCondF_congr :
    ∀ bound : Nat, ∀ s : Str, s.length ≤ bound → ∀ ctx f g,
      s.length < f → s.length < g → evalCondF ctx f s = evalCondF ctx g s := by
  intro bound
  induction bound with
  | zero =>
    intro s hs ctx f g hf hg
    have : s = [] := List.length_eq_zero.mp (Nat.le_zero.mp hs)
    subst this
    obtain ⟨f', rfl⟩ : ∃ f', f = f' + 1 := ⟨f - 1, by omega⟩
    obtain ⟨g', rfl⟩ : ∃ g', g = g' + 1 := ⟨g - 1, by omega⟩
    rfl
  | succ bound ih =>
    intro s hs ctx f g hf hg
    obtain ⟨f', rfl⟩ : ∃ f', f = f' + 1 := ⟨f - 1, by omega⟩
    obtain ⟨g', rfl⟩ : ∃ g', g = g' + 1 := ⟨g - 1, by omega⟩
    have hnle : (trimL s).length ≤ s.length := trimL_length_le s
    simp only [evalCondF]
    by_cases hempty : trimL s = []
    · simp [hempty]
    · simp only [hempty, if_false]
      by_cases hand : 1 < (splitOnWord (strL "and") (trimL s)).length
      · simp only [hand, if_true]
        apply listAllCongr
        intro p hp
        have hplt := splitOnWord_parts_lt (strL "and") (trimL s) (by omega) p hp
        simp only [strL] at hplt
        exact ih p (by simp at hplt; omega) ctx f' g'
          (by simp at hplt; omega) (by simp at hplt; omega)
      · simp only [hand, if_false]
        by_cases hor : 1 < (splitOnWord (strL "or") (trimL s)).length
        · simp only [hor, if_true]
          apply listAnyCongr
          intro p hp
          have hplt := splitOnWord_parts_lt (strL "or") (trimL s) (by omega) p hp
          simp only [strL] at hplt
          exact ih p (by simp at hplt; omega) ctx f' g'
            (by simp at hplt; omega) (by simp at hplt; omega)
        · simp only [hor, if_false]
          by_cases hnot : notTest (trimL s) = true
          · simp only [hnot, if_true]
            have hlt := notStrip_lt (trimL s) hnot
            rw [ih (notStrip (trimL s)) (by omega) ctx f' g' (by omega) (by omega)]
          · simp only [hnot, Bool.false_eq_true, if_false]

/-- Fuel sufficiency for condition evaluation: every recursive call descends
to a strictly shorter condition string. -/
theorem evaluateCondition_fuel (s : Str) (ctx : Ctx) (f : Nat)
    (h : s.length < f) : evalCondF ctx f s = evaluateCondition s ctx :=
  evalCondF_congr s.length s le_rfl ctx f (s.length + 1) h (by omega)

/-- A condition whose trimmed text splits on `\s+and\s+` into two or more
parts holds exactly when every part holds. -/
theorem evaluateCondition_and (s : Str) (ctx : Ctx)
    (h : 1 < (splitOnWord (strL "and") (trimL s)).length) :
    evaluateCondition s ctx =
      (splitOnWord (strL "and") (trimL s)).all
        (fun p => evaluateCondition p ctx) := by
  have hne : trimL s ≠ [] := by
    intro hnil
    rw [hnil] at h
    simp [splitOnWord, splitWordAuxF] at h
  unfold evaluateCondition
  simp only [evalCondF]
  simp only [hne, if_false, h, if_true]
  apply listAllCongr
  intro p hp
  have hplt := splitOnWord_parts_lt (strL "and") (trimL s) (by omega) p hp
  have hnle := trimL_length_le s
  have h3 : (strL "and").length = 3 := rfl
  exact evaluateCondition_fuel p ctx s.length (by omega)

/-- A condition with no top-level `and` but an `or` split of two or more
parts holds exactly when some part holds: `and` is split first, so it binds
looser than `or`. -/
theorem evaluateCondition_or (s : Str) (ctx : Ctx)
    (hand : ¬ 1 < (splitOnWord (strL "and") (trimL s)).length)
    (h : 1 < (splitOnWord (strL "or") (trimL s)).length) :
    evaluateCondition s ctx =
      (splitOnWord (strL "or") (trimL s)).any
        (fun p => evaluateCondition p ctx) := by
  have hne : trimL s ≠ [] := by
    intro hnil
    rw [hnil] at h
    simp [splitOnWord, splitWordAuxF] at h
  unfold evaluateCondition
  simp only [evalCondF]
  simp only [hne, if_false, hand, h, if_true]
  apply listAnyCongr
  intro p hp
  have hplt := splitOnWord_parts_lt (strL "or") (trimL s) (by omega) p hp
  have hnle := trimL_length_le s
  have h2 : (strL "or").length = 2 := rfl
  exact evaluateCondition_fuel p ctx s.length (by omega)

/-- Operator dispatch: a condition with no `and`/`or`/`not` structure whose
operator scan succeeds is split around the found operator's first occurrence
and compared. -/
theorem evaluateCondition_op (s : Str) (ctx : Ctx) (op : Str) (i : Nat)
    (hand : ¬ 1 < (splitOnWord (strL "and") (trimL s)).length)
    (hor : ¬ 1 < (splitOnWord (strL "or") (trimL s)).length)
    (hnot : notTest (trimL s) = false)
    (hfind : findOp OPERATORS (trimL s) = some (op, i)) :
    evaluateCondition s ctx =
      compareValues (trimL ((trimL s).take i)) op
        (trimL ((trimL s).drop (i + op.length))) ctx := by
  have hne : trimL s ≠ [] := by
    intro hnil
    rw [hnil] at hfind
    have hnone : findOp OPERATORS ([] : Str) = none := by decide
    rw [hnone] at hfind
    cases hfind
  unfold evaluateCondition
  simp only [evalCondF]
  simp only [hne, if_false, hand, hor, hnot, Bool.false_eq_true, hfind, if_true]

theorem matchCond_none_of_head (kw : Str) (c : Char) (rest : Str)
    (hc : c ≠ '{') : matchCond kw (c :: rest) = none := by
  unfold matchCond
  split
  · rename_i body heq
    injection heq with h1
    exact absurd h1 hc
  · rfl

theorem matchVariable_none_of_head (c : Char) (rest : Str) (hc : c ≠ '{') :
    matchVariable (c :: rest) = none := by
  unfold matchVariable
  split
  · rename_i c2 rest2 heq
    injection heq with h1
    exact absurd h1 hc
  · rfl

theorem matchElse_false_of_head (c : Char) (rest : Str) (hc : c ≠ '{') :
    matchElse (c :: rest) = false := by
  unfold matchElse
  split
  · rename_i body heq
    injection heq with h1
    exact absurd h1 hc
  · rfl

theorem matchEndif_false_of_head (c : Char) (rest : Str) (hc : c ≠ '{') :
    matchEndif (c :: rest) = false := by
  unfold matchEndif
  split
  · rename_i body heq
    injection heq with h1
    exact absurd h1 hc
  · rfl

theorem takeWhileAll {α : Type} (p : α → Bool) (l : List α)
    (h : ∀ a ∈ l, p a = true) : l.takeWhile p = l := by
  induction l with
  | nil => rfl
  | cons a t ih =>
    rw [List.takeWhile_cons, if_pos (h a (List.mem_cons_self a t))]
    rw [ih (fun b hb => h b (List.mem_cons_of_mem a hb))]

/-- A non-empty template without any `{` tokenizes to a single text token. -/
theorem tokenize_plain (cs : Str) (hne : cs ≠ []) (hnb : '{' ∉ cs) :
    tokenize cs = [.text cs] := by
  cases cs with
  | nil => exact absurd rfl hne
  | cons c rest =>
    have hc : c ≠ '{' := fun h => hnb (h ▸ List.mem_cons_self c rest)
    have hall : ∀ a ∈ c :: rest, (fun a => decide (a ≠ '{')) a = true := by
      intro a ha
      simp only [decide_eq_true_eq]
      exact fun h => hnb (h ▸ ha)
    unfold tokenize
    rw [show (c :: rest).length = rest.length + 1 from rfl, tokenizeF]
    rw [matchCond_none_of_head _ _ _ hc]
    rw [matchCond_none_of_head _ _ _ hc]
    rw [matchElse_false_of_head _ _ hc, matchEndif_false_of_head _ _ hc]
    rw [matchVariable_none_of_head _ _ hc]
    simp only [Bool.false_eq_true, if_false, hc]
    rw [takeWhileAll _ _ hall]
    rw [show ((c :: rest).drop ((c :: rest).length)) = [] by simp]
    rw [tokenizeF_nil]

/-- Rendering a non-empty brace-free text is just the blank-line pass. -/
theorem renderL_plain (cs : Str) (hnb : '{' ∉ cs) (ctx : Ctx) :
    renderTemplatePreviewL cs ctx = collapse cs := by
  by_cases hne : cs = []
  · subst hne
    rfl
  · unfold renderTemplatePreviewL
    rw [tokenize_plain cs hne hnb]
    show renderNodesF 2 (parse [.text cs]) ctx = collapse cs
    have hparse : parse [.text cs] = [.text cs] := rfl
    rw [hparse]
    show collapse (chunksWith (renderNodesF 1) [.text cs] ctx) = collapse cs
    simp only [chunksWith]
    rw [List.append_nil]

/-- Every render output is a fixpoint of the blank-line pass, because the
top-level `renderNodes` call ends with it. -/
theorem renderNodesF_succ (f : Nat) (nodes : List AstNode) (ctx : Ctx) :
    renderNodesF (f + 1) nodes ctx =
      collapse (chunksWith (renderNodesF f) nodes ctx) := rfl

theorem renderL_collapse_fixed (template : Str) (ctx : Ctx) :
    collapse (renderTemplatePreviewL template ctx) =
      renderTemplatePreviewL template ctx := by
  unfold renderTemplatePreviewL
  rw [renderNodesF_succ, collapse_idem]

theorem walkPath_forbidden :
    ∀ parts : List Str, ∀ v : Value,
      (∃ seg ∈ parts, seg ∈ FORBIDDEN_PATHS ∨ seg.head? = some '_') →
      walkPath parts v = (Value.null, false) := by
  intro parts
  induction parts with
  | nil =>
    rintro v ⟨seg, hseg, _⟩
    exact absurd hseg (List.not_mem_nil seg)
  | cons p ps ih =>
    rintro v ⟨seg, hseg, hforb⟩
    rw [walkPath]
    split_ifs with hguard
    · rfl
    · have hsegps : seg ∈ ps := by
        rcases List.mem_cons.mp hseg with hx | hx
        · subst hx
          exact absurd (by simpa using hforb) hguard
        · exact hx
      cases hobj : objGet v p with
      | some w => exact ih w ⟨seg, hsegps, hforb⟩
      | none => rfl

theorem firstIdxSub_none (needle : Str) :
    ∀ hay, firstIdxSub needle hay = none →
      ∀ j, hasPrefixCS needle (hay.drop j) = false := by
  intro hay
  induction hay with
  | nil =>
    intro h j
    rw [firstIdxSub] at h
    split_ifs at h with hn
    cases needle with
    | nil => exact absurd rfl hn
    | cons a ns => simp [hasPrefixCS]
  | cons c t ih =>
    intro h j
    rw [firstIdxSub] at h
    by_cases hpfx : hasPrefixCS needle (c :: t) = true
    · rw [if_pos hpfx] at h
      cases h
    · rw [if_neg hpfx] at h
      have hnone : firstIdxSub needle t = none := by
        cases hx : firstIdxSub needle t with
        | none => rfl
        | some k => rw [hx] at h; cases h
      cases j with
      | zero => simpa using hpfx
      | succ j =>
        rw [List.drop_succ_cons]
        exact ih hnone j

theorem firstIdxSub_some (needle : Str) :
    ∀ hay i, firstIdxSub needle hay = some i →
      hasPrefixCS needle (hay.drop i) = true ∧
      ∀ j < i, hasPrefixCS needle (hay.drop j) = false := by
  intro hay
  induction hay with
  | nil =>
    intro i h
    rw [firstIdxSub] at h
    split_ifs at h with hn
    · injection h with h1
      subst h1
      subst hn
      exact ⟨rfl, by omega⟩
  | cons c t ih =>
    intro i h
    rw [firstIdxSub] at h
    by_cases hpfx : hasPrefixCS needle (c :: t) = true
    · rw [if_pos hpfx] at h
      injection h with h1
      subst h1
      exact ⟨hpfx, by omega⟩
    · rw [if_neg hpfx] at h
      cases hx : firstIdxSub needle t with
      | none => rw [hx] at h; cases h
      | some k =>
        rw [hx] at h
        injection h with h1
        subst h1
        obtain ⟨h1, h2⟩ := ih k hx
        refine ⟨by rw [List.drop_succ_cons]; exact h1, ?_⟩
        intro j hj
        cases j with
        | zero => simpa using hpfx
        | succ m =>
          rw [List.drop_succ_cons]
          have hmk : m < k := by simpa using hj
          exact h2 m hmk

/-- What the operator-scan loop returns: the found operator is in the list,
every operator strictly earlier in the list occurs nowhere in the string,
and the returned index is the operator's first occurrence. -/
theorem findOp_spec :
    ∀ ops : List Str, ∀ n : Str, ∀ op : Str, ∀ i : Nat,
      findOp ops n = some (op, i) →
      ∃ pre post, ops = pre ++ op :: post ∧
        (∀ o ∈ pre, ∀ j, hasPrefixCS o (n.drop j) = false) ∧
        hasPrefixCS op (n.drop i) = true ∧
        (∀ j < i, hasPrefixCS op (n.drop j) = false) := by
  intro ops
  induction ops with
  | nil => intro n op i h; cases h
  | cons o ops ih =>
    intro n op i h
    rw [findOp] at h
    cases hx : firstIdxSub o n with
    | some j =>
      rw [hx] at h
      injection h with h1
      obtain ⟨ho, hi⟩ := Prod.mk.injEq .. ▸ h1
      have hoo : o = op := by
        have := congrArg Prod.fst h1
        simpa using this
      have hii : j = i := by
        have := congrArg Prod.snd h1
        simpa using this
      subst hoo
      subst hii
      obtain ⟨hat, hmin⟩ := firstIdxSub_some o n j hx
      exact ⟨[], ops, rfl, by simp, hat, hmin⟩
    | none =>
      rw [hx] at h
      obtain ⟨pre, post, hops, hpre, hat, hmin⟩ := ih n op i h
      refine ⟨o :: pre, post, by rw [hops]; rfl, ?_, hat, hmin⟩
      intro x hxmem j
      rcases List.mem_cons.mp hxmem with hxo | hxp
      · subst hxo
        exact firstIdxSub_none x n hx j
      · exact hpre x hxp j

/-- Claim C1, counterexample: the blank-line normalization pass is not
applied exactly once to the full concatenation. On the template
`A{if true}\nX\n{/if}B` the engine yields `AXB` (the branch output
`\nX\n` was collapsed to `X` before concatenation), while a single collapse
over the raw concatenation (the spec-modelled `collapseOnceRender`) yields
`A\nX\nB`. -/
theorem c1_counterexample :
    renderTemplatePreview "A{if true}\nX\n{/if}B" [] ≠
      collapseOnceRender "A{if true}\nX\n{/if}B" [] := by
  decide

/-- Claim C1, amended: the blank-line pass runs once per `renderNodes`
invocation, not once overall — the final output is always a fixpoint of the
pass, and the rendered output of a taken conditional branch has itself been
collapsed before the enclosing invocation collapses the concatenation
again. -/
theorem c1_collapse_per_invocation :
    (∀ template ctx, collapse (renderTemplatePreviewL template ctx) =
      renderTemplatePreviewL template ctx) ∧
    (∀ f c tb ctx, evaluateCondition c ctx = true →
      renderNodesF (f + 1) [.ifNode c tb [] []] ctx =
        collapse (renderNodesF f tb ctx)) := by
  refine ⟨renderL_collapse_fixed, ?_⟩
  intro f c tb ctx hc
  rw [renderNodesF_succ]
  simp only [chunksWith, hc, if_true, List.append_nil]

/-- Witness for the amended C1 at a concrete branch. -/
theorem c1_collapse_witness :
    evaluateCondition (strL "true") [] = true ∧
    renderNodesF 2 [.ifNode (strL "true") [.text (strL "hi")] [] []] [] =
      collapse (renderNodesF 1 [.text (strL "hi")] []) :=
  ⟨by decide,
   c1_collapse_per_invocation.2 1 (strL "true") [.text (strL "hi")] []
     (by decide)⟩

/-- Claim C2: evaluation splits the trimmed condition on `and` first
(requiring every part), and only conditions with no top-level `and` are
split on `or` (requiring some part), so `and` binds looser than `or`; in
particular `a and b or c` evaluates as `a AND (b OR c)` and is false when
`a = false`, `b = true`, `c = false`. -/
theorem c2_and_binds_looser :
    (∀ s ctx, 1 < (splitOnWord (strL "and") (trimL s)).length →
      evaluateCondition s ctx =
        (splitOnWord (strL "and") (trimL s)).all
          (fun p => evaluateCondition p ctx)) ∧
    (∀ s ctx, ¬ 1 < (splitOnWord (strL "and") (trimL s)).length →
      1 < (splitOnWord (strL "or") (trimL s)).length →
      evaluateCondition s ctx =
        (splitOnWord (strL "or") (trimL s)).any
          (fun p => evaluateCondition p ctx)) ∧
    (∀ ctx, evaluateCondition (strL "a and b or c") ctx =
      (evaluateCondition (strL "a") ctx &&
        (evaluateCondition (strL "b") ctx ||
          evaluateCondition (strL "c") ctx))) ∧
    evaluateCondition (strL "a and b or c")
      [(strL "a", .bool false), (strL "b", .bool true),
       (strL "c", .bool false)] = false := by
  refine ⟨evaluateCondition_and, evaluateCondition_or, ?_, by decide⟩
  intro ctx
  rw [evaluateCondition_and _ ctx (by decide)]
  rw [show splitOnWord (strL "and") (trimL (strL "a and b or c")) =
    [strL "a", strL "b or c"] from by decide]
  simp only [List.all_cons, List.all_nil, Bool.and_true]
  rw [evaluateCondition_or (strL "b or c") ctx (by decide) (by decide)]
  rw [show splitOnWord (strL "or") (trimL (strL "b or c")) =
    [strL "b", strL "c"] from by decide]
  simp only [List.any_cons, List.any_nil, Bool.or_false]

/-- Witness for the split rules of C2 at a concrete condition. -/
theorem c2_witness :
    1 < (splitOnWord (strL "and") (trimL (strL "x and y"))).length ∧
    evaluateCondition (strL "x and y") [] =
      (splitOnWord (strL "and") (trimL (strL "x and y"))).all
        (fun p => evaluateCondition p []) :=
  ⟨by decide, c2_and_binds_looser.1 (strL "x and y") [] (by decide)⟩

/-- Claim C3: for a condition with no `and`/`or`/`not` structure, the
comparison operator is the first in the fixed list order whose text occurs
anywhere in the condition (not the one occurring earliest by position); the
condition is split around that operator's first textual occurrence and both
sides are resolved and compared. In `x<y = x<y`, `=` wins over the
positionally earlier `<`, so the condition compares the strings `x<y`
equal. -/
theorem c3_operator_scan :
    (∀ n op i, findOp OPERATORS n = some (op, i) →
      ∃ pre post, OPERATORS = pre ++ op :: post ∧
        (∀ o ∈ pre, ∀ j, hasPrefixCS o (n.drop j) = false) ∧
        hasPrefixCS op (n.drop i) = true ∧
        (∀ j < i, hasPrefixCS op (n.drop j) = false)) ∧
    (∀ s ctx op i,
      ¬ 1 < (splitOnWord (strL "and") (trimL s)).length →
      ¬ 1 < (splitOnWord (strL "or") (trimL s)).length →
      notTest (trimL s) = false →
      findOp OPERATORS (trimL s) = some (op, i) →
      evaluateCondition s ctx =
        compareValues (trimL ((trimL s).take i)) op
          (trimL ((trimL s).drop (i + op.length))) ctx) ∧
    findOp OPERATORS (strL "x<y = x<y") = some (strL "=", 4) ∧
    evaluateCondition (strL "x<y = x<y") [] = true := by
  exact ⟨fun n op i h => findOp_spec OPERATORS n op i h,
    fun s ctx op i h1 h2 h3 h4 => evaluateCondition_op s ctx op i h1 h2 h3 h4,
    by decide, by decide⟩

/-- Witness for the operator dispatch of C3 at a concrete condition. -/
theorem c3_witness :
    findOp OPERATORS (trimL (strL "b<a = c")) = some (strL "=", 4) ∧
    evaluateCondition (strL "b<a = c") [] =
      compareValues (trimL ((trimL (strL "b<a = c")).take 4)) (strL "=")
        (trimL ((trimL (strL "b<a = c")).drop (4 + (strL "=").length))) [] :=
  ⟨by decide,
   c3_operator_scan.2.1 (strL "b<a = c") [] (strL "=") 4 (by decide)
     (by decide) (by decide) (by decide)⟩

/-- Claim C4: a path containing a denylisted segment or a segment starting
with an underscore resolves to nothing for every context (the walk reports
non-existence with a `null` value), the variable renders as the empty
string, and the rendered output is identical across any two contexts — it
cannot depend on the value stored at such a key. -/
theorem c4_forbidden_paths (path : Str) (ctx : Ctx)
    (h : ∃ seg ∈ splitChar '.' path,
      seg ∈ FORBIDDEN_PATHS ∨ seg.head? = some '_') :
    getValueWithExists path ctx = (Value.null, false) ∧
    (∀ f, renderNodesF (f + 1) [.var path []] ctx = []) ∧
    (∀ ctx2 : Ctx, ∀ f, renderNodesF (f + 1) [.var path []] ctx =
      renderNodesF (f + 1) [.var path []] ctx2) := by
  have hwalk : ∀ c : Ctx, getValueWithExists path c = (Value.null, false) :=
    fun c => walkPath_forbidden (splitChar '.' path) (Value.obj c) h
  have hrender : ∀ c : Ctx, ∀ f,
      renderNodesF (f + 1) [.var path []] c = [] := by
    intro c f
    rw [renderNodesF_succ]
    have hg : getValue path c = Value.null := by
      unfold getValue
      rw [hwalk c]
    simp only [chunksWith, List.foldl_nil, hg]
    rfl
  exact ⟨hwalk ctx, hrender ctx,
    fun ctx2 f => by rw [hrender ctx f, hrender ctx2 f]⟩

/-- Witness for C4: the `__class__` key renders empty even when the context
stores a value there. -/
theorem c4_witness :
    (∃ seg ∈ splitChar '.' (strL "__class__"),
      seg ∈ FORBIDDEN_PATHS ∨ seg.head? = some '_') ∧
    getValueWithExists (strL "__class__")
      [(strL "__class__", .str (strL "SECRET"))] = (Value.null, false) ∧
    renderNodesF 1 [.var (strL "__class__") []]
      [(strL "__class__", .str (strL "SECRET"))] = [] :=
  ⟨by decide,
   (c4_forbidden_paths (strL "__class__")
     [(strL "__class__", .str (strL "SECRET"))] (by decide)).1,
   (c4_forbidden_paths (strL "__class__")
     [(strL "__class__", .str (strL "SECRET"))] (by decide)).2.1 0⟩

/-- Claim C5: `renderTemplatePreview` is a total function — it returns a
string on every template and context, and malformed syntax or missing data
degrade to safe defaults instead of errors, as the concrete malformed
templates show. -/
theorem c5_total :
    (∀ (template : String) (ctx : Ctx), ∃ out : String,
      renderTemplatePreview template ctx = out) ∧
    renderTemplatePreview "\x7bif" [] = "\x7bif" ∧
    renderTemplatePreview "{a}{b|bogus}{/if}{else}" [] = "" ∧
    renderTemplatePreview "{a}" [] = "" :=
  ⟨fun template ctx => ⟨_, rfl⟩, by decide, by decide, by decide⟩

/-- Claim C6: the literal/expression resolution ladder tries its rules in
order — trimmed-empty, fully quoted, numeral, boolean words, dotted path,
direct context key, verbatim text — and returns at the first that applies. -/
theorem c6_resolve_order :
    (∀ s ctx, trimL s = [] → resolveValue s ctx = .str []) ∧
    (∀ s ctx, trimL s ≠ [] → quoteGuard (trimL s) →
      resolveValue s ctx = .str (((trimL s).drop 1).dropLast)) ∧
    (∀ s ctx, trimL s ≠ [] → ¬ quoteGuard (trimL s) →
      isNumeral (trimL s) = true →
      resolveValue s ctx =
        (if (trimL s).contains '.' then Value.num (parseFloatL (trimL s))
         else Value.num (parseIntL (trimL s)))) ∧
    (∀ s ctx, trimL s ≠ [] → ¬ quoteGuard (trimL s) →
      isNumeral (trimL s) = false → lowerL (trimL s) = strL "true" →
      resolveValue s ctx = .bool true) ∧
    (∀ s ctx, trimL s ≠ [] → ¬ quoteGuard (trimL s) →
      isNumeral (trimL s) = false → lowerL (trimL s) ≠ strL "true" →
      lowerL (trimL s) = strL "false" → resolveValue s ctx = .bool false) ∧
    (∀ s ctx, trimL s ≠ [] → ¬ quoteGuard (trimL s) →
      isNumeral (trimL s) = false → lowerL (trimL s) ≠ strL "true" →
      lowerL (trimL s) ≠ strL "false" → (trimL s).contains '.' = true →
      resolveValue s ctx =
        (if (getValueWithExists (trimL s) ctx).2 then
          (getValueWithExists (trimL s) ctx).1
         else Value.null)) ∧
    (∀ s ctx, trimL s ≠ [] → ¬ quoteGuard (trimL s) →
      isNumeral (trimL s) = false → lowerL (trimL s) ≠ strL "true" →
      lowerL (trimL s) ≠ strL "false" → (trimL s).contains '.' = false →
      ctxHas (trimL s) ctx = true →
      resolveValue s ctx = ctxGet (trimL s) ctx) ∧
    (∀ s ctx, trimL s ≠ [] → ¬ quoteGuard (trimL s) →
      isNumeral (trimL s) = false → lowerL (trimL s) ≠ strL "true" →
      lowerL (trimL s) ≠ strL "false" → (trimL s).contains '.' = false →
      ctxHas (trimL s) ctx = false →
      resolveValue s ctx = .str (trimL s)) := by
  refine ⟨?_, ?_, ?_, ?_, ?_, ?_, ?_, ?_⟩ <;>
    intro s ctx <;> unfold resolveValue
  · intro h1
    simp only [h1, if_true]
  · intro h1 h2
    simp only [h1, if_false, h2, if_true]
  · intro h1 h2 h3
    simp only [h1, if_false, h2, h3, if_true]
  · intro h1 h2 h3 h4
    simp only [h1, if_false, h2, h3, Bool.false_eq_true, h4, if_true]
  · intro h1 h2 h3 h4 h5
    simp only [h1, if_false, h2, h3, Bool.false_eq_true, h4, h5, if_true]
    rfl
  · intro h1 h2 h3 h4 h5 h6
    simp only [h1, if_false, h2, h3, Bool.false_eq_true, h4, h5, h6, if_true]
  · intro h1 h2 h3 h4 h5 h6 h7
    simp only [h1, if_false, h2, h3, Bool.false_eq_true, h4, h5, h6, h7,
      if_true]
  · intro h1 h2 h3 h4 h5 h6 h7
    simp only [h1, if_false, h2, h3, Bool.false_eq_true, h4, h5, h6, h7,
      if_true]

/-- Witness for C6: each resolution rule firing on a concrete input. -/
theorem c6_witness :
    resolveValue (strL "  ") [] = .str [] ∧
    resolveValue (strL "\x275\x27") [] = .str (strL "5") ∧
    resolveValue (strL "5") [] = .num 5 ∧
    resolveValue (strL "TRUE") [] = .bool true ∧
    resolveValue (strL "a.b") [] = .null ∧
    resolveValue (strL "k") [(strL "k", .num 7)] = .num 7 ∧
    resolveValue (strL "k") [] = .str (strL "k") := by
  refine ⟨?_, ?_, ?_, ?_, ?_, ?_, ?_⟩
  · exact c6_resolve_order.1 (strL "  ") [] (by decide)
  · have := c6_resolve_order.2.1 (strL "\x275\x27") [] (by decide) (by decide)
    simpa using this
  · have := c6_resolve_order.2.2.1 (strL "5") [] (by decide) (by decide)
      (by decide)
    rw [this]
    rfl
  · exact c6_resolve_order.2.2.2.1 (strL "TRUE") [] (by decide) (by decide)
      (by decide) (by decide)
  · have := c6_resolve_order.2.2.2.2.2.1 (strL "a.b") [] (by decide)
      (by decide) (by decide) (by decide) (by decide) (by decide)
    rw [this]
    rfl
  · have := c6_resolve_order.2.2.2.2.2.2.1 (strL "k") [(strL "k", .num 7)]
      (by decide) (by decide) (by decide) (by decide) (by decide) (by decide)
      (by decide)
    rw [this]
    rfl
  · have := c6_resolve_order.2.2.2.2.2.2.2 (strL "k") [] (by decide)
      (by decide) (by decide) (by decide) (by decide) (by decide) (by decide)
    simpa using this

/-- Claim C7, counterexample: rendering is not idempotent — a context value
containing template syntax is re-interpreted on a second pass. With
`a = "{b}"` and `b = "X"`, rendering `{a}` yields `{b}`, and rendering that
output again yields `X`. -/
theorem c7_counterexample :
    renderTemplatePreview
        (renderTemplatePreview "{a}"
          [(strL "a", .str (strL "{b}")), (strL "b", .str (strL "X"))])
        [(strL "a", .str (strL "{b}")), (strL "b", .str (strL "X"))] ≠
      renderTemplatePreview "{a}"
        [(strL "a", .str (strL "{b}")), (strL "b", .str (strL "X"))] := by
  decide

/-- Claim C7, amended: rendering is idempotent whenever the first render's
output contains no `{` — such output tokenizes as plain text and the
blank-line pass is already a fixpoint on it. -/
theorem c7_idempotent_on_brace_free (template : String) (ctx : Ctx)
    (h : '{' ∉ (renderTemplatePreview template ctx).data) :
    renderTemplatePreview (renderTemplatePreview template ctx) ctx =
      renderTemplatePreview template ctx := by
  unfold renderTemplatePreview at h ⊢
  have hdata : (String.mk (renderTemplatePreviewL template.data ctx)).data =
      renderTemplatePreviewL template.data ctx := rfl
  rw [hdata] at h
  congr 1
  rw [hdata, renderL_plain _ h ctx, renderL_collapse_fixed]

/-- Witness for the amended C7 on a brace-free render output. -/
theorem c7_idempotent_witness :
    '{' ∉ (renderTemplatePreview "hello\n\nworld" []).data ∧
    renderTemplatePreview (renderTemplatePreview "hello\n\nworld" []) [] =
      renderTemplatePreview "hello\n\nworld" [] :=
  ⟨by decide, c7_idempotent_on_brace_free "hello\n\nworld" [] (by decide)⟩

/-- Claim C8: `smartSplit` returns the ordered substrings between
un-quoted, depth-zero delimiter occurrences. Joining the fragments with the
delimiter reconstructs the input exactly, up to one trailing delimiter
whose empty final fragment is dropped; the concrete cases exercise quote
masking (a quote toggles only its own flag and only while the other is
off), parenthesis depth, the zero floor of the depth counter, the dropped
trailing empty fragment, and the kept leading empty fragment. -/
theorem c8_smartSplit :
    (∀ input : Str, ∀ d : Char,
      joinWith [d] (smartSplit input d) = input ∨
      joinWith [d] (smartSplit input d) ++ [d] = input) ∧
    smartSplit (strL "a\x27b|c\x27d|e") '|' =
      [strL "a\x27b|c\x27d", strL "e"] ∧
    smartSplit (strL "x\x22a\x27b\x22|y") '|' =
      [strL "x\x22a\x27b\x22", strL "y"] ∧
    smartSplit (strL "a(b|c)|d") '|' = [strL "a(b|c)", strL "d"] ∧
    smartSplit (strL "a)b(|c") '|' = [strL "a)b(|c"] ∧
    smartSplit (strL "a|") '|' = [strL "a"] ∧
    smartSplit (strL "a|b") '|' = [strL "a", strL "b"] ∧
    smartSplit (strL "|a") '|' = [[], strL "a"] :=
  ⟨smartSplit_join, by decide, by decide, by decide, by decide, by decide,
   by decide, by decide⟩

/-- Claim C9: an `elif`, `else`, or `endif` token outside its stop set is
silently skipped — it contributes no node and parsing continues — and a
template with an orphan `{elif …}` still renders all of its other
content. -/
theorem c9_orphan_control :
    (∀ f c rest, parseBlockF (f + 1) ⟨false, false, false⟩
        (.elifT c :: rest) = parseBlockF f ⟨false, false, false⟩ rest) ∧
    (∀ f rest, parseBlockF (f + 1) ⟨false, false, false⟩
        (.elseT :: rest) = parseBlockF f ⟨false, false, false⟩ rest) ∧
    (∀ f rest, parseBlockF (f + 1) ⟨false, false, false⟩
        (.endifT :: rest) = parseBlockF f ⟨false, false, false⟩ rest) ∧
    renderTemplatePreview "A{elif x}B" [] = "AB" := by
  refine ⟨?_, ?_, ?_, by decide⟩
  · intro f c rest
    simp [parseBlockF]
  · intro f rest
    simp [parseBlockF]
  · intro f rest
    simp [parseBlockF]

/-- Claim C10: tokenization, parsing, and rendering terminate on every
input. Formally, every fuel bound of one unit per character (tokenizer),
one unit per token (parser), or one unit above the AST size (renderer,
condition evaluator by condition length) is already stable — larger fuel
never changes the result — and the parsed AST is no larger than the token
stream, so the fuels used by `renderTemplatePreviewL` suffice and it is a
total function. -/
theorem c10_termination :
    (∀ cs : Str, ∀ f, cs.length ≤ f → tokenizeF f cs = tokenize cs) ∧
    (∀ ts : List TemplateToken, ∀ opts f, ts.length ≤ f →
      parseBlockF f opts ts = parseBlockF ts.length opts ts) ∧
    (∀ nodes : List AstNode, ∀ ctx f, astSizeList nodes < f →
      renderNodesF f nodes ctx = renderNodesF (astSizeList nodes + 1) nodes ctx) ∧
    (∀ tokens : List TemplateToken, astSizeList (parse tokens) ≤ tokens.length) ∧
    (∀ s : Str, ∀ ctx f, s.length < f →
      evalCondF ctx f s = evaluateCondition s ctx) ∧
    (∀ template : Str, ∀ ctx : Ctx, ∃ out : Str,
      renderTemplatePreviewL template ctx = out) :=
  ⟨fun cs f h => tokenize_fuel cs f h,
   fun ts opts f h => parseBlockF_fuel ts opts f h,
   fun nodes ctx f h => renderNodesF_fuel nodes ctx f h,
   parse_size_le,
   fun s ctx f h => evaluateCondition_fuel s ctx f h,
   fun template ctx => ⟨renderTemplatePreviewL template ctx, rfl⟩⟩

/-- Witness for C10 at concrete fuels above the stable bounds. -/
theorem c10_witness :
    ((strL "{x}").length ≤ 7 ∧
      tokenizeF 7 (strL "{x}") = tokenize (strL "{x}")) ∧
    ([TemplateToken.text (strL "A")].length ≤ 4 ∧
      parseBlockF 4 ⟨false, false, false⟩ [TemplateToken.text (strL "A")] =
        parseBlockF 1 ⟨false, false, false⟩ [TemplateToken.text (strL "A")]) ∧
    (astSizeList [AstNode.text (strL "A")] < 9 ∧
      renderNodesF 9 [AstNode.text (strL "A")] [] =
        renderNodesF (astSizeList [AstNode.text (strL "A")] + 1)
          [AstNode.text (strL "A")] []) ∧
    ((strL "x").length < 6 ∧
      evalCondF [] 6 (strL "x") = evaluateCondition (strL "x") []) := by
  refine ⟨⟨by decide, c10_termination.1 (strL "{x}") 7 (by decide)⟩,
    ⟨by decide, ?_⟩,
    ⟨by decide, c10_termination.2.2.1 [AstNode.text (strL "A")] [] 9
      (by decide)⟩,
    ⟨by decide, c10_termination.2.2.2.2.1 (strL "x") [] 6 (by decide)⟩⟩
  have := c10_termination.2.1 [TemplateToken.text (strL "A")]
    ⟨false, false, false⟩ 4 (by decide)
  simpa using this

end TemplatePreview
